import Mathlib

/-!
Verification development for the `ropenapi` swagger-to-TypeScript generator.

The Rust sources (`parser.rs`, `models.rs`, `generator.rs`, `main.rs`) are
shallowly embedded below: serde_json values become the inductive `Json`,
strings stay `String` (with explicit list-of-char helpers modelling the Rust
`str` operations actually used), `BTreeMap` becomes a sorted association
list, and the `expect` panic inside `extract_type_definition` becomes an
`Option` whose `none` aborts the whole parse, mirroring process abort.
-/

namespace Ropenapi

/-- Model of `serde_json::Value`.  Objects keep their bindings as an
association list; keys coming from parsed JSON are unique. -/
inductive Json where
  | null : Json
  | bool (b : Bool) : Json
  | num (n : Int) : Json
  | str (s : String) : Json
  | arr (items : List Json) : Json
  | obj (fields : List (String × Json)) : Json

/-- First binding with the given key, as `serde_json::Map::get`. -/
def lookupField : List (String × Json) → String → Option Json
  | [], _ => none
  | (k, v) :: rest, key => if k = key then some v else lookupField rest key

/-- Model of `Value::get` (string index): only objects answer. -/
def Json.get (j : Json) (key : String) : Option Json :=
  match j with
  | .obj fields => lookupField fields key
  | _ => none

/-- Model of `Value::as_str`. -/
def Json.asStr : Json → Option String
  | .str s => some s
  | _ => none

/-- Model of `Value::as_bool`. -/
def Json.asBool : Json → Option Bool
  | .bool b => some b
  | _ => none

/-- Model of `Value::as_array`. -/
def Json.asArr : Json → Option (List Json)
  | .arr items => some items
  | _ => none

/-- Model of `Value::as_object`, returning the binding list. -/
def Json.asObj : Json → Option (List (String × Json))
  | .obj fields => some fields
  | _ => none

theorem lookupField_sizeOf {fs : List (String × Json)} {key : String} {v : Json}
    (h : lookupField fs key = some v) : sizeOf v < 1 + sizeOf fs := by
  induction fs with
  | nil => simp [lookupField] at h
  | cons hd tl ih =>
    obtain ⟨k, w⟩ := hd
    simp only [lookupField] at h
    by_cases hk : k = key
    · simp [hk] at h
      subst h
      simp only [List.cons.sizeOf_spec, Prod.mk.sizeOf_spec]
      omega
    · simp [hk] at h
      have := ih h
      simp only [List.cons.sizeOf_spec, Prod.mk.sizeOf_spec]
      omega

theorem Json.get_sizeOf {j : Json} {key : String} {v : Json}
    (h : j.get key = some v) : sizeOf v < sizeOf j := by
  cases j <;> simp only [Json.get] at h
  case obj fields =>
    have := lookupField_sizeOf h
    simp only [Json.obj.sizeOf_spec]
    omega
  all_goals cases h

/-! ### String helpers modelling the Rust `str` operations used by the code. -/

/-- ASCII model of the lowercase mapping used by `str::to_lowercase`
(code points 65-90 are the ASCII uppercase letters). -/
def lowerChar (c : Char) : Char :=
  if 65 ≤ c.toNat ∧ c.toNat ≤ 90 then Char.ofNat (c.toNat + 32) else c

/-- ASCII model of the uppercase mapping used by `str::to_uppercase`
(code points 97-122 are the ASCII lowercase letters). -/
def upperChar (c : Char) : Char :=
  if 97 ≤ c.toNat ∧ c.toNat ≤ 122 then Char.ofNat (c.toNat - 32) else c

/-- Model of `str::to_lowercase`. -/
def toLowerStr (s : String) : String := ⟨s.data.map lowerChar⟩

/-- Model of `str::to_uppercase`. -/
def toUpperStr (s : String) : String := ⟨s.data.map upperChar⟩

/-- Model of `str::trim`. -/
def trimStr (s : String) : String :=
  ⟨((s.data.dropWhile Char.isWhitespace).reverse.dropWhile Char.isWhitespace).reverse⟩

/-- Model of `str::trim_end`. -/
def trimEndStr (s : String) : String :=
  ⟨(s.data.reverse.dropWhile Char.isWhitespace).reverse⟩

/-- Model of `str::trim_end_matches` with a single-char pattern. -/
def trimEndMatchesChar (s : String) (c : Char) : String :=
  ⟨(s.data.reverse.dropWhile (· = c)).reverse⟩

/-- Model of `str::trim_start_matches` with a single-char pattern. -/
def trimStartMatchesChar (s : String) (c : Char) : String :=
  ⟨s.data.dropWhile (· = c)⟩

/-- Substring test on char lists (auxiliary for `containsStr`). -/
def isInfixOfL (needle : List Char) : List Char → Bool
  | [] => needle.isEmpty
  | a :: t => needle.isPrefixOf (a :: t) || isInfixOfL needle t

/-- Model of `str::contains` with a `&str` pattern (substring test). -/
def containsStr (hay needle : String) : Bool :=
  isInfixOfL needle.data hay.data

/-- Model of `str::ends_with`. -/
def endsWithStr (s suffix : String) : Bool :=
  suffix.data.isSuffixOf s.data

/-- Model of `str::replace` with a single-char pattern. -/
def replaceCharWith (s : String) (c : Char) (r : String) : String :=
  ⟨(s.data.map (fun ch => if ch = c then r.data else [ch])).flatten⟩

/-- Auxiliary splitter on a character predicate. -/
def splitPredAux (p : Char → Bool) : List Char → List Char → List (List Char)
  | [], acc => [acc.reverse]
  | x :: xs, acc =>
    if p x then acc.reverse :: splitPredAux p xs []
    else splitPredAux p xs (x :: acc)

/-- Model of `str::split_whitespace` (splits on whitespace, drops empties). -/
def splitWhitespaceStr (s : String) : List String :=
  ((splitPredAux Char.isWhitespace s.data []).map (fun l => (⟨l⟩ : String))).filter
    (fun t => ¬ t.isEmpty)

/-- Auxiliary for single-char `str::split`. -/
def splitOnCharAux (c : Char) : List Char → List Char → List (List Char)
  | [], acc => [acc.reverse]
  | x :: xs, acc =>
    if x = c then acc.reverse :: splitOnCharAux c xs []
    else splitOnCharAux c xs (x :: acc)

/-- Model of `str::split` with a single-char pattern. -/
def splitOnCharStr (s : String) (c : Char) : List String :=
  (splitOnCharAux c s.data []).map (fun l => ⟨l⟩)

/-- Model of the indexed-join loop in `write_api_file_with_request_lib`:
elements separated by `sep`. -/
def intercalateStr (sep : String) : List String → String
  | [] => ""
  | [x] => x
  | x :: xs => x ++ sep ++ intercalateStr sep xs

/-! ### Data model (`models.rs`) -/

/-- `models.rs::FieldData`. -/
structure FieldData where
  field_type : String
  optional : Bool
  description : Option String
deriving DecidableEq, Repr

/-- `models.rs::TypeDefinition`; the `BTreeMap<String, FieldData>` becomes a
key-sorted association list. -/
structure TypeDefinition where
  name : String
  fields : List (String × FieldData)
  description : Option String
deriving DecidableEq, Repr

/-- `models.rs::ApiOperation`. -/
structure ApiOperation where
  path : String
  method : String
  function_name : String
  request_type : String
  response_type : String
  operation_id : Option String
deriving DecidableEq, Repr

/-- `models.rs::Service`; the `BTreeMap<String, TypeDefinition>` becomes a
key-sorted association list. -/
structure Service where
  name : String
  operations : List ApiOperation
  type_definitions : List (String × TypeDefinition)
deriving DecidableEq, Repr

/-- Executable lexicographic comparison on character lists, by code point
(the order Rust's `Ord` on `String` induces, since UTF-8 byte order agrees
with code-point order). -/
def charListLt : List Char → List Char → Bool
  | [], [] => false
  | [], _ :: _ => true
  | _ :: _, [] => false
  | a :: as, b :: bs =>
    if a.toNat < b.toNat then true
    else if b.toNat < a.toNat then false
    else charListLt as bs

/-- Executable model of the `Ord`-order on `String` used by `BTreeMap`. -/
def strLtB (a b : String) : Bool := charListLt a.data b.data

/-- `BTreeMap::insert` on a key-sorted association list: replaces the value
at an existing key, otherwise inserts at the sorted position. -/
def insertAM {α : Type} : List (String × α) → String → α → List (String × α)
  | [], k, v => [(k, v)]
  | (k', v') :: rest, k, v =>
    if strLtB k k' then (k, v) :: (k', v') :: rest
    else if k = k' then (k, v) :: rest
    else (k', v') :: insertAM rest k v

/-- `BTreeMap::get` on an association list (first binding wins). -/
def lookupAM {α : Type} : List (String × α) → String → Option α
  | [], _ => none
  | (k', v') :: rest, k => if k = k' then some v' else lookupAM rest k

/-! ### Parser (`parser.rs`) -/

/-- `parser.rs::is_valid_http_method`. -/
def is_valid_http_method (method : String) : Bool :=
  method = "get" ∨ method = "post" ∨ method = "put" ∨ method = "delete" ∨
    method = "patch" ∨ method = "head" ∨ method = "options"

/-- `parser.rs::extract_tag`: first entry of the `tags` array, as a string. -/
def extract_tag (operation : Json) : Option String :=
  ((operation.get "tags").bind Json.asArr).bind (fun arr => arr.head?.bind Json.asStr)

/-- `parser.rs::normalize_tag`. -/
def normalize_tag (tag : String) : String := toLowerStr (trimStr tag)

/-- `parser.rs::should_include_type`. -/
def should_include_type (type_name : String) (operations : List ApiOperation) : Bool :=
  operations.any (fun op =>
    containsStr op.request_type type_name || containsStr op.response_type type_name)

/-- `parser.rs::capitalize_first`. -/
def capitalize_first (s : String) : String :=
  match s.data with
  | [] => ""
  | first :: rest => ⟨upperChar first :: rest⟩

/-- `parser.rs::METHOD_OP_MAP`. -/
def METHOD_OP_MAP : List (String × String) :=
  [("get", "Get"), ("post", "Create"), ("put", "Update"), ("delete", "Delete"),
   ("patch", "Patch"), ("head", "Head"), ("options", "Options")]

/-- `parser.rs::generate_function_name`. -/
def generate_function_name (method path : String) : String :=
  let method_lower := toLowerStr method
  let path_clean :=
    replaceCharWith (replaceCharWith (replaceCharWith path '/' " ") '{' " by ") '}' ""
  let parts := (splitWhitespaceStr path_clean).filter (fun s => ¬ s.isEmpty)
  let base := ((METHOD_OP_MAP.find? (fun p => p.1 = method_lower)).map (fun p => p.2)).getD ""
  parts.foldl (fun result part => result ++ capitalize_first part) base

/-- `parser.rs::extract_function_name`. -/
def extract_function_name (operation : Json) (method path : String) : String :=
  match (operation.get "operationId").bind Json.asStr with
  | some opid => opid
  | none => generate_function_name method path

/-- `parser.rs::extract_type_name_from_schema`. -/
def extract_type_name_from_schema (schema : Json) : String :=
  match (schema.get "$ref").bind Json.asStr with
  | some ref_str => (splitOnCharStr ref_str '/').getLastD "any"
  | none =>
    match (schema.get "type").bind Json.asStr with
    | some type_str =>
      match type_str with
      | "string" => "string"
      | "integer" => "number"
      | "number" => "number"
      | "float" => "number"
      | "double" => "number"
      | "boolean" => "boolean"
      | "array" =>
        match h : schema.get "items" with
        | some items => extract_type_name_from_schema items ++ "[]"
        | none => "any[]"
      | _ => "any"
    | none => "any"
termination_by sizeOf schema
decreasing_by exact Json.get_sizeOf h

/-- The primitive mapping used for flat 2.0-style parameters inside
`extract_types`. -/
def jsTypeOfParam (field_type : String) : String :=
  match field_type with
  | "string" => "string"
  | "integer" => "number"
  | "number" => "number"
  | "float" => "number"
  | "double" => "number"
  | "boolean" => "boolean"
  | _ => "any"

/-- The `for param in params` loop of `extract_types`: `request_type` starts
as `"any"`, each parameter carrying a `schema` overwrites it, and the loop
breaks at the first non-empty, non-`"any"` resolution. -/
def paramSchemaLoop : List Json → String → String
  | [], request_type => request_type
  | param :: rest, request_type =>
    match param.get "schema" with
    | some schema =>
      let rt := extract_type_name_from_schema schema
      if ¬ rt.isEmpty ∧ rt ≠ "any" then rt else paramSchemaLoop rest rt
    | none => paramSchemaLoop rest request_type

/-- The synthesized-field loop of `extract_types`: parameters carrying a
string `name` and a string `type` become fields of the custom request type. -/
def synthFields (params : List Json) : List (String × FieldData) :=
  params.foldl (fun fields param =>
    match (param.get "name").bind Json.asStr with
    | some field_name =>
      match (param.get "type").bind Json.asStr with
      | some field_type =>
        insertAM fields field_name
          { field_type := jsTypeOfParam field_type,
            optional := (((param.get "required").bind Json.asBool).map (fun b => !b)).getD true,
            description := none }
      | none => fields
    | none => fields) []

/-- `parser.rs::extract_types`: returns the request type, the response type,
and the possibly-extended service (a synthesized request type is inserted
into the owning service's type table). -/
def extract_types (operation : Json) (service : Service) : String × String × Service :=
  let request_type :=
    match (operation.get "parameters").bind Json.asArr with
    | some params => paramSchemaLoop params "any"
    | none => "any"
  let request_type :=
    if request_type = "any" then
      match (((operation.get "requestBody").bind (fun rb => rb.get "content")).bind
          (fun content => content.get "application/json")).bind
          (fun appjson => appjson.get "schema") with
      | some schema => extract_type_name_from_schema schema
      | none => request_type
    else request_type
  let (request_type, service) :=
    if request_type = "any" then
      let params := ((operation.get "parameters").bind Json.asArr).getD []
      if ¬ params.isEmpty then
        let type_name := capitalize_first service.name ++ "Request"
        let custom_type : TypeDefinition :=
          { name := type_name, fields := synthFields params, description := none }
        (type_name,
         { service with
             type_definitions := insertAM service.type_definitions type_name custom_type })
      else (request_type, service)
    else (request_type, service)
  let response_type :=
    match (operation.get "responses").bind Json.asObj with
    | some responses =>
      let response_schema :=
        ((((lookupField responses "200").or (lookupField responses "201")).or
            (lookupField responses "default")).or ((responses.map (fun p => p.2)).head?))
      match response_schema with
      | some resp =>
        match resp.get "schema" with
        | some schema => extract_type_name_from_schema schema
        | none =>
          match ((resp.get "content").bind
              (fun content => content.get "application/json")).bind
              (fun appjson => appjson.get "schema") with
          | some schema => extract_type_name_from_schema schema
          | none => "any"
      | none => "any"
    | none => "any"
  (if request_type.isEmpty then "any" else request_type,
   if response_type.isEmpty then "any" else response_type,
   service)

/-- The `required_fields.iter().map(as_str).map(expect)` collection inside
`extract_type_definition`: `none` models the `expect` panic on the first
non-string entry. -/
def collectRequiredStrs : List Json → Option (List String)
  | [] => some []
  | v :: rest =>
    match v.asStr with
    | none => none
    | some s => (collectRequiredStrs rest).map (fun r => s :: r)

/-- `parser.rs::extract_type_definition`.  The `expect("required field is
not a string")` panic is modelled as `none`; the Rust function otherwise
always returns `Ok`, so `some` is the `Ok` case. -/
def extract_type_definition (name : String) (schema : Json) : Option TypeDefinition :=
  let description := (schema.get "description").bind Json.asStr
  match (schema.get "properties").bind Json.asObj with
  | some props =>
    let required_fields := ((schema.get "required").bind Json.asArr).getD []
    match collectRequiredStrs required_fields with
    | none => none
    | some required_fields_set =>
      let fields := props.foldl (fun fields p =>
        insertAM fields p.1
          { field_type := extract_type_name_from_schema p.2,
            optional := !required_fields_set.contains p.1,
            description := none }) []
      some { name := name, fields := fields, description := description }
  | none => some { name := name, fields := [], description := description }

/-- A fresh `Service` as created by `get_service`'s `or_insert_with`. -/
def emptyService (name : String) : Service :=
  { name := name, operations := [], type_definitions := [] }

/-- `parser.rs::get_service` followed by a mutation of the service:
`BTreeMap::entry(name).or_insert_with(empty)` then apply `f` in place.
The map is a key-sorted association list, as `BTreeMap` iterates sorted. -/
def updateServiceMap : List (String × Service) → String → (Service → Service) →
    List (String × Service)
  | [], name, f => [(name, f (emptyService name))]
  | (k, v) :: rest, name, f =>
    if strLtB name k then (name, f (emptyService name)) :: (k, v) :: rest
    else if name = k then (k, f v) :: rest
    else (k, v) :: updateServiceMap rest name f

/-- `parser.rs::parse_operation` (always `Ok` in the source): builds the
`ApiOperation` and threads the service through `extract_types`. -/
def parse_operation (operation : Json) (path method : String) (service : Service) :
    ApiOperation × Service :=
  let function_name := extract_function_name operation method path
  let (request_type, response_type, service) := extract_types operation service
  ({ path := path, method := toUpperStr method, function_name := function_name,
     request_type := request_type, response_type := response_type,
     operation_id := (operation.get "operationId").bind Json.asStr },
   service)

/-- The tag-filter guard of `parse_swagger`: the `continue` fires exactly
when a filter set is present and does not contain the normalized tag, so an
operation proceeds iff no filter is supplied or the tag is a member. -/
def tagAllowed : Option (List String) → String → Bool
  | some filters, tag_normalized => filters.contains tag_normalized
  | none, _ => true

/-- One `(method, operation)` step of the inner loop of `parse_swagger`:
skip invalid methods, apply the tag filter, then parse the operation into
the service keyed by the normalized tag and push it. -/
def methodStep (tag_filters : Option (List String)) (path method : String)
    (operation : Json) (m : List (String × Service)) : List (String × Service) :=
  if is_valid_http_method method then
    let tag_name := (extract_tag operation).getD "default"
    let tag_normalized := normalize_tag tag_name
    if tagAllowed tag_filters tag_normalized then
      updateServiceMap m tag_normalized (fun service =>
        let (api_op, service) := parse_operation operation path method service
        { service with operations := service.operations ++ [api_op] })
    else m
  else m

/-- The inner `for (method, operation)` loop of `parse_swagger`. -/
def buildMethods (tag_filters : Option (List String)) (path : String) :
    List (String × Json) → List (String × Service) → List (String × Service)
  | [], m => m
  | (method, operation) :: rest, m =>
    buildMethods tag_filters path rest (methodStep tag_filters path method operation m)

/-- The outer `for (path, path_item)` loop of `parse_swagger`; non-object
path items are skipped. -/
def buildMap (tag_filters : Option (List String)) :
    List (String × Json) → List (String × Service) → List (String × Service)
  | [], m => m
  | (path, path_item) :: rest, m =>
    buildMap tag_filters rest
      (match path_item.asObj with
       | some obj => buildMethods tag_filters path obj m
       | none => m)

/-- `parser.rs::find_schemas`. -/
def find_schemas (swagger : Json) : Option Json :=
  match swagger.get "definitions" with
  | some defs => some defs
  | none =>
    match swagger.get "components" with
    | some components => components.get "schemas"
    | none => none

/-- The inner `for service in service_map.values_mut()` loop of the
type-attachment pass, for one `(name, schema)` binding.  A panic inside
`extract_type_definition` aborts the run (`none`). -/
def attachStep (name : String) (schema : Json) : List Service → Option (List Service)
  | [] => some []
  | service :: rest =>
    if should_include_type name service.operations then
      (extract_type_definition name schema).bind (fun type_def =>
        (attachStep name schema rest).map (fun r =>
          { service with
              type_definitions := insertAM service.type_definitions name type_def } :: r))
    else (attachStep name schema rest).map (fun r => service :: r)

/-- The outer `for (name, schema) in schema_obj` loop of the
type-attachment pass of `parse_swagger`. -/
def attachPass : List (String × Json) → List Service → Option (List Service)
  | [], services => some services
  | (name, schema) :: rest, services =>
    match attachStep name schema services with
    | none => none
    | some services => attachPass rest services

/-- `parser.rs::parse_swagger`.  `none` covers both the fatal missing/
non-object `paths` error and the `expect` panic of the attachment pass.
The two nested `if let`s guarding the attachment pass (schemas present,
and an object) are collapsed into one `bind`. -/
def parse_swagger (swagger : Json) (tag_filters : Option (List String)) :
    Option (List Service) :=
  ((swagger.get "paths").bind Json.asObj).bind (fun paths =>
    let service_map := buildMap tag_filters paths []
    let services := service_map.map (fun p => p.2)
    match (find_schemas swagger).bind Json.asObj with
    | some schema_obj => attachPass schema_obj services
    | none => some services)

/-! ### Filter construction (`main.rs`) -/

/-- The tag allow-list construction in `main.rs`: split on commas, trim,
drop empty entries.  The Rust `HashSet` is only ever queried for
membership, so a list with `contains` is a faithful model. -/
def mkTagFilters (s : String) : List String :=
  ((splitOnCharStr s ',').map trimStr).filter (fun t => ¬ t.isEmpty)

/-! ### Code emission (`models.rs` rendering + `generator.rs`) -/

/-- `models.rs::TypeDefinition::to_typescript`. -/
def TypeDefinition.to_typescript (td : TypeDefinition) : String :=
  if td.fields.isEmpty then "export type " ++ td.name ++ " = any;"
  else
    let body := td.fields.foldl (fun body p =>
      body ++ "  " ++ p.1 ++ (if p.2.optional then "?" else "") ++ ": " ++
        p.2.field_type ++ ";\n") "\x7b\n"
    "export type " ++ td.name ++ " = " ++ body ++ "\x7d"

/-- `models.rs::ApiOperation::to_typescript_function`. -/
def ApiOperation.to_typescript_function (op : ApiOperation) ( path_prefix : String) : String :=
  let arg_name := if op.method = "GET" ∨ op.method = "DELETE" then "params" else "data"
  let req_type := if op.request_type.isEmpty ∨ op.request_type = "any" then "any"
                  else op.request_type
  let resp_type := if op.response_type.isEmpty ∨ op.response_type = "any" then "any"
                   else op.response_type
  let url := trimEndMatchesChar path_prefix '/' ++ "/" ++ trimStartMatchesChar op.path '/'
  "export const " ++ op.function_name ++ " = async (" ++ arg_name ++ ": " ++ req_type ++
    "): Promise<" ++ resp_type ++ "> => \x7b\n  return request<" ++ req_type ++ ", " ++
    resp_type ++ ">(\x7b\n    url: \x27" ++ url ++ "\x27,\n    " ++ arg_name ++ ": " ++
    arg_name ++ ",\n    method: \x27" ++ op.method ++ "\x27,\n  \x7d);\n\x7d;"

/-- `generator.rs::capitalize`. -/
def capitalize (s : String) : String :=
  match s.data with
  | [] => ""
  | f :: rest => ⟨upperChar f :: rest⟩

/-- The content built by `generator.rs::write_api_file_with_request_lib`. -/
def apiContent (service : Service) (request_lib api_prefix : String) : String :=
  "// @ts-expect-error\n" ++ request_lib ++ "\n\n" ++
    intercalateStr "\n\n"
      (service.operations.map (fun op => op.to_typescript_function api_prefix)) ++ "\n"

/-- `generator.rs::type_already_exists`. -/
def type_already_exists (type_defs : List TypeDefinition) (type_name : String) : Bool :=
  type_defs.any (fun type_def => type_def.name = type_name)

/-- The content built by `generator.rs::write_types_file` before writing:
banner, the type definitions in table (name) order, placeholder aliases for
referenced-but-undefined non-`any` type names, then a trim to exactly one
trailing newline. -/
def typesContent (service : Service) : String :=
  let content := "/**\n * Type definitions for " ++ service.name ++ " service\n */\n\n"
  let type_defs := service.type_definitions.map (fun p => p.2)
  let content := type_defs.foldl (fun content td => content ++ td.to_typescript ++ "\n\n") content
  let content := service.operations.foldl (fun content operation =>
    let content :=
      if ¬ type_already_exists type_defs operation.request_type = true ∧
          operation.request_type ≠ "any" then
        content ++ "export type " ++ operation.request_type ++ " = any;\n\n"
      else content
    if ¬ type_already_exists type_defs operation.response_type = true ∧
        operation.response_type ≠ "any" then
      content ++ "export type " ++ operation.response_type ++ " = any;\n\n"
    else content) content
  trimEndStr content ++ "\n"

/-- The file system as a map from paths to contents. -/
def FS : Type := String → Option String

/-- `fs::write`: create or truncate, then write the whole buffer. -/
def fsWrite (fs : FS) (path content : String) : FS :=
  fun q => if q = path then some content else fs q

/-- `generator.rs::write_api_file_with_request_lib` (overwrites). -/
def write_api_file_with_request_lib (fs : FS) (path : String) (service : Service)
    (request_lib api_prefix : String) : FS :=
  fsWrite fs path (apiContent service request_lib api_prefix)

/-- `generator.rs::write_types_file`: appends when the path exists,
otherwise writes fresh. -/
def write_types_file (fs : FS) (path : String) (service : Service) : FS :=
  match fs path with
  | some old => fsWrite fs path (old ++ typesContent service)
  | none => fsWrite fs path (typesContent service)

/-- `generator.rs::write_service_to_file`: API file first, then the types
content into the same path. -/
def write_service_to_file (fs : FS) (path : String) (service : Service)
    (request_lib api_prefix : String) : FS :=
  write_types_file (write_api_file_with_request_lib fs path service request_lib api_prefix)
    path service

/-- The file-name computation of `generator.rs::write_service`. -/
def serviceFileName (service : Service) : String :=
  let service_name :=
    if endsWithStr (toLowerStr service.name) "Controller" then service.name
    else capitalize service.name ++ "Controller"
  service_name ++ ".ts"

/-- `generator.rs::write_service` on the file-system model: one service,
written under the services root. -/
def write_service (fs : FS) (services_root : String) (service : Service)
    (request_lib api_prefix : String) : FS :=
  write_service_to_file fs (services_root ++ "/" ++ serviceFileName service) service
    request_lib api_prefix

/-- `generator.rs::write_services` over the parsed services. -/
def write_services (fs : FS) (services_root : String) (services : List Service)
    (request_lib api_prefix : String) : FS :=
  services.foldl (fun fs service =>
    write_service fs services_root service request_lib api_prefix) fs

/-! ### Characteristic equations of the type resolver -/

theorem etn_of_ref {schema : Json} {r : String}
    (h : (schema.get "$ref").bind Json.asStr = some r) :
    extract_type_name_from_schema schema = (splitOnCharStr r '/').getLastD "any" := by
  rw [extract_type_name_from_schema, h]

theorem etn_no_ref_no_type {schema : Json}
    (h1 : (schema.get "$ref").bind Json.asStr = none)
    (h2 : (schema.get "type").bind Json.asStr = none) :
    extract_type_name_from_schema schema = "any" := by
  rw [extract_type_name_from_schema, h1, h2]

theorem etn_string {schema : Json}
    (h1 : (schema.get "$ref").bind Json.asStr = none)
    (h2 : (schema.get "type").bind Json.asStr = some "string") :
    extract_type_name_from_schema schema = "string" := by
  rw [extract_type_name_from_schema, h1, h2]; rfl

theorem etn_integer {schema : Json}
    (h1 : (schema.get "$ref").bind Json.asStr = none)
    (h2 : (schema.get "type").bind Json.asStr = some "integer") :
    extract_type_name_from_schema schema = "number" := by
  rw [extract_type_name_from_schema, h1, h2]; rfl

theorem etn_number {schema : Json}
    (h1 : (schema.get "$ref").bind Json.asStr = none)
    (h2 : (schema.get "type").bind Json.asStr = some "number") :
    extract_type_name_from_schema schema = "number" := by
  rw [extract_type_name_from_schema, h1, h2]; rfl

theorem etn_float {schema : Json}
    (h1 : (schema.get "$ref").bind Json.asStr = none)
    (h2 : (schema.get "type").bind Json.asStr = some "float") :
    extract_type_name_from_schema schema = "number" := by
  rw [extract_type_name_from_schema, h1, h2]; rfl

theorem etn_double {schema : Json}
    (h1 : (schema.get "$ref").bind Json.asStr = none)
    (h2 : (schema.get "type").bind Json.asStr = some "double") :
    extract_type_name_from_schema schema = "number" := by
  rw [extract_type_name_from_schema, h1, h2]; rfl

theorem etn_boolean {schema : Json}
    (h1 : (schema.get "$ref").bind Json.asStr = none)
    (h2 : (schema.get "type").bind Json.asStr = some "boolean") :
    extract_type_name_from_schema schema = "boolean" := by
  rw [extract_type_name_from_schema, h1, h2]; rfl

theorem etn_array_items {schema items : Json}
    (h1 : (schema.get "$ref").bind Json.asStr = none)
    (h2 : (schema.get "type").bind Json.asStr = some "array")
    (h3 : schema.get "items" = some items) :
    extract_type_name_from_schema schema =
      extract_type_name_from_schema items ++ "[]" := by
  rw [extract_type_name_from_schema, h1, h2]
  repeat' split
  all_goals simp_all

theorem etn_array_no_items {schema : Json}
    (h1 : (schema.get "$ref").bind Json.asStr = none)
    (h2 : (schema.get "type").bind Json.asStr = some "array")
    (h3 : schema.get "items" = none) :
    extract_type_name_from_schema schema = "any[]" := by
  rw [extract_type_name_from_schema, h1, h2]
  repeat' split
  all_goals simp_all

theorem etn_unknown {schema : Json} {t : String}
    (h1 : (schema.get "$ref").bind Json.asStr = none)
    (h2 : (schema.get "type").bind Json.asStr = some t)
    (hne : t ≠ "string" ∧ t ≠ "integer" ∧ t ≠ "number" ∧ t ≠ "float" ∧
      t ≠ "double" ∧ t ≠ "boolean" ∧ t ≠ "array") :
    extract_type_name_from_schema schema = "any" := by
  obtain ⟨n1, n2, n3, n4, n5, n6, n7⟩ := hne
  rw [extract_type_name_from_schema, h1, h2]
  repeat' split
  all_goals simp_all

/-! ### Spec-side definitions for the function-name claim (C2) -/

/-- The method-verb table exactly as the spec words it:
get→Get, post→Create, put→Update, delete→Delete, patch→Patch, head→Head,
options→Options. -/
def specMethodVerb (method : String) : String :=
  match method with
  | "get" => "Get"
  | "post" => "Create"
  | "put" => "Update"
  | "delete" => "Delete"
  | "patch" => "Patch"
  | "head" => "Head"
  | "options" => "Options"
  | _ => ""

/-- Path tokens as the spec words them: replace `/` with a space, `\x7b`
with " by ", delete `\x7d`, split on whitespace. -/
def specPathTokens (path : String) : List String :=
  splitWhitespaceStr
    (replaceCharWith (replaceCharWith (replaceCharWith path '/' " ") '{' " by ") '}' "")

/-- The synthesized function name as the spec words it: the method verb
followed by the capitalized tokens, concatenated. -/
def specFunctionName (method path : String) : String :=
  specMethodVerb method ++
    ((specPathTokens path).map capitalize_first).foldr (fun s acc => s ++ acc) ""

theorem foldl_append_capitalize (parts : List String) (b : String) :
    parts.foldl (fun result part => result ++ capitalize_first part) b =
      b ++ (parts.map capitalize_first).foldr (fun s acc => s ++ acc) "" := by
  induction parts generalizing b with
  | nil => simp
  | cons x xs ih => simp [ih, String.append_assoc]

theorem generate_function_name_eq (method path : String) :
    generate_function_name method path =
      ((METHOD_OP_MAP.find? (fun p => p.1 = toLowerStr method)).map (fun p => p.2)).getD "" ++
        ((specPathTokens path).map capitalize_first).foldr (fun s acc => s ++ acc) "" := by
  simp only [generate_function_name, specPathTokens, splitWhitespaceStr]
  rw [List.filter_filter]
  simp only [Bool.and_self]
  rw [foldl_append_capitalize]

/-- C2: for operations without a string `operationId`, the generated
function name is the method verb concatenated with the capitalized path
tokens (`/`→space, `\x7b`→" by ", `\x7d` deleted, split on whitespace);
`delete /orders/\x7borderId\x7d` yields `DeleteOrdersByOrderId`; a string
`operationId` is used verbatim. -/
theorem claim_C2_function_names :
    (∀ (operation : Json) (method path : String),
        (operation.get "operationId").bind Json.asStr = none →
        is_valid_http_method method = true →
        extract_function_name operation method path = specFunctionName method path)
  ∧ (∀ (operation : Json) (method path opid : String),
        (operation.get "operationId").bind Json.asStr = some opid →
        extract_function_name operation method path = opid)
  ∧ generate_function_name "delete" "/orders/\x7borderId\x7d" = "DeleteOrdersByOrderId" := by
  refine ⟨?_, ?_, ?_⟩
  · intro operation method path hop hval
    have h1 : extract_function_name operation method path =
        generate_function_name method path := by
      rw [extract_function_name, hop]
    rw [h1, generate_function_name_eq]
    simp only [is_valid_http_method, decide_eq_true_eq] at hval
    rcases hval with rfl | rfl | rfl | rfl | rfl | rfl | rfl <;> rfl
  · intro operation method path opid hop
    rw [extract_function_name, hop]
  · rfl

/-- Witness for C2 at a concrete operation without `operationId`. -/
theorem claim_C2_function_names_witness :
    ((Json.obj []).get "operationId").bind Json.asStr = none
    ∧ is_valid_http_method "get" = true
    ∧ extract_function_name (Json.obj []) "get" "/users" = specFunctionName "get" "/users" :=
  ⟨rfl, rfl, claim_C2_function_names.1 (Json.obj []) "get" "/users" rfl rfl⟩

/-- C4: the schema-to-type resolver is total and matches the spec case by
case: a string `$ref` resolves to the segment after the last `/`; primitive
types map string→string, integer|number|float|double→number,
boolean→boolean; arrays resolve the `items` schema and append `[]`
(defaulting to `any[]`); every other shape yields `any`. -/
theorem claim_C4_resolver_cases :
    (∀ (schema : Json) (r : String), (schema.get "$ref").bind Json.asStr = some r →
      extract_type_name_from_schema schema = (splitOnCharStr r '/').getLastD "any")
  ∧ (∀ schema : Json, (schema.get "$ref").bind Json.asStr = none →
      (schema.get "type").bind Json.asStr = some "string" →
      extract_type_name_from_schema schema = "string")
  ∧ (∀ (schema : Json) (t : String), (schema.get "$ref").bind Json.asStr = none →
      (schema.get "type").bind Json.asStr = some t →
      (t = "integer" ∨ t = "number" ∨ t = "float" ∨ t = "double") →
      extract_type_name_from_schema schema = "number")
  ∧ (∀ schema : Json, (schema.get "$ref").bind Json.asStr = none →
      (schema.get "type").bind Json.asStr = some "boolean" →
      extract_type_name_from_schema schema = "boolean")
  ∧ (∀ (schema items : Json), (schema.get "$ref").bind Json.asStr = none →
      (schema.get "type").bind Json.asStr = some "array" →
      schema.get "items" = some items →
      extract_type_name_from_schema schema = extract_type_name_from_schema items ++ "[]")
  ∧ (∀ schema : Json, (schema.get "$ref").bind Json.asStr = none →
      (schema.get "type").bind Json.asStr = some "array" →
      schema.get "items" = none →
      extract_type_name_from_schema schema = "any[]")
  ∧ (∀ (schema : Json) (t : String), (schema.get "$ref").bind Json.asStr = none →
      (schema.get "type").bind Json.asStr = some t →
      (t ≠ "string" ∧ t ≠ "integer" ∧ t ≠ "number" ∧ t ≠ "float" ∧
        t ≠ "double" ∧ t ≠ "boolean" ∧ t ≠ "array") →
      extract_type_name_from_schema schema = "any")
  ∧ (∀ schema : Json, (schema.get "$ref").bind Json.asStr = none →
      (schema.get "type").bind Json.asStr = none →
      extract_type_name_from_schema schema = "any") := by
  refine ⟨fun _ _ h => etn_of_ref h, fun _ h1 h2 => etn_string h1 h2, ?_,
    fun _ h1 h2 => etn_boolean h1 h2, fun _ _ h1 h2 h3 => etn_array_items h1 h2 h3,
    fun _ h1 h2 h3 => etn_array_no_items h1 h2 h3, fun _ _ h1 h2 h3 => etn_unknown h1 h2 h3,
    fun _ h1 h2 => etn_no_ref_no_type h1 h2⟩
  intro schema t h1 h2 ht
  rcases ht with rfl | rfl | rfl | rfl
  · exact etn_integer h1 h2
  · exact etn_number h1 h2
  · exact etn_float h1 h2
  · exact etn_double h1 h2

/-- Witness for C4: the `$ref` case at a concrete schema, resolving a
reference ending in `/User` to `User`. -/
theorem claim_C4_resolver_cases_witness :
    ((Json.obj [("$ref", Json.str "#/components/schemas/User")]).get "$ref").bind
        Json.asStr = some "#/components/schemas/User"
    ∧ extract_type_name_from_schema (Json.obj [("$ref", Json.str "#/components/schemas/User")]) =
        (splitOnCharStr "#/components/schemas/User" '/').getLastD "any"
    ∧ (splitOnCharStr "#/components/schemas/User" '/').getLastD "any" = "User" :=
  ⟨rfl, claim_C4_resolver_cases.1 _ "#/components/schemas/User" rfl, rfl⟩

/-! ### Spec-side definitions for the request-type claim (C1) and the
response-type claim (C3) -/

/-- The request-type resolution exactly as claim C1 words it:
(a) the first parameter carrying a `schema` node that resolves to something
other than `any`; (b) otherwise the `requestBody` JSON-content schema;
(c) otherwise, for a non-empty `parameters` array, the synthesized
`CapitalizedServiceName ++ "Request"` name; (d) otherwise `any`. -/
def claimRequestTypeC1 (operation : Json) (service : Service) : String :=
  let params := ((operation.get "parameters").bind Json.asArr).getD []
  match params.findSome? (fun param =>
      (param.get "schema").bind (fun schema =>
        let r := extract_type_name_from_schema schema
        if r ≠ "any" then some r else none)) with
  | some r => r
  | none =>
    match (((operation.get "requestBody").bind (fun rb => rb.get "content")).bind
        (fun content => content.get "application/json")).bind
        (fun appjson => appjson.get "schema") with
    | some schema => extract_type_name_from_schema schema
    | none =>
      if ¬ params.isEmpty then capitalize_first service.name ++ "Request"
      else "any"

/-- The response-type resolution exactly as claim C3 words it: choose the
response entry keyed `200`, else `201`, else `default`, else the first
entry; resolve its `schema` directly, else
`content["application/json"].schema`; `any` only when no entry or no
schema is found. -/
def claimResponseTypeC3 (operation : Json) : String :=
  match (operation.get "responses").bind Json.asObj with
  | some responses =>
    match (((lookupField responses "200").or (lookupField responses "201")).or
        (lookupField responses "default")).or ((responses.map (fun p => p.2)).head?) with
    | some resp =>
      match resp.get "schema" with
      | some schema => extract_type_name_from_schema schema
      | none =>
        match ((resp.get "content").bind
            (fun content => content.get "application/json")).bind
            (fun appjson => appjson.get "schema") with
        | some schema => extract_type_name_from_schema schema
        | none => "any"
    | none => "any"
  | none => "any"

/-- The parameter scan of the amended claim C1: each schema-bearing
parameter's resolution replaces the candidate, stopping at the first
resolution that is neither empty nor `any`. -/
def amendedParamCandidate : List Json → String → String
  | [], cand => cand
  | param :: rest, cand =>
    match param.get "schema" with
    | none => amendedParamCandidate rest cand
    | some schema =>
      let r := extract_type_name_from_schema schema
      if r ≠ "" ∧ r ≠ "any" then r else amendedParamCandidate rest r

/-- The primitive mapping of the amended claim C1: string→string,
integer|number|float|double→number, boolean→boolean, anything else→any. -/
def amendedPrimMap (t : String) : String :=
  match t with
  | "string" => "string"
  | "integer" => "number"
  | "number" => "number"
  | "float" => "number"
  | "double" => "number"
  | "boolean" => "boolean"
  | _ => "any"

/-- The synthesized fields of the amended claim C1: the parameters carrying
a string `name` and a string `type`, primitive-mapped, optional unless
`required` is the boolean `true`. -/
def amendedSynthFields (params : List Json) : List (String × FieldData) :=
  (params.filterMap (fun param =>
    match (param.get "name").bind Json.asStr with
    | none => none
    | some n =>
      match (param.get "type").bind Json.asStr with
      | none => none
      | some t => some (n,
          { field_type := amendedPrimMap t,
            optional := !(((param.get "required").bind Json.asBool).getD false),
            description := none }))).foldl (fun fields p => insertAM fields p.1 p.2) []

/-- The request-type resolution of the amended claim C1 (see
`claim_C1_amended` for the amended wording). -/
def amendedRequestType (operation : Json) (service : Service) : String × Service :=
  let cand :=
    amendedParamCandidate (((operation.get "parameters").bind Json.asArr).getD []) "any"
  let cand :=
    if cand = "any" then
      match (((operation.get "requestBody").bind (fun rb => rb.get "content")).bind
          (fun content => content.get "application/json")).bind
          (fun appjson => appjson.get "schema") with
      | some schema => extract_type_name_from_schema schema
      | none => cand
    else cand
  let res :=
    if cand = "any" then
      let params := ((operation.get "parameters").bind Json.asArr).getD []
      if ¬ params.isEmpty then
        let type_name := capitalize_first service.name ++ "Request"
        let custom : TypeDefinition :=
          { name := type_name, fields := amendedSynthFields params, description := none }
        (type_name,
         { service with
             type_definitions := insertAM service.type_definitions type_name custom })
      else (cand, service)
    else (cand, service)
  (if res.1 = "" then "any" else res.1, res.2)

/-- The response-type resolution of the amended claim C3: as claim C3, and
additionally an empty resolution is replaced by `any`. -/
def amendedResponseType (operation : Json) : String :=
  let r := claimResponseTypeC3 operation
  if r = "" then "any" else r

theorem paramLoop_eq_amended (params : List Json) (cand : String) :
    paramSchemaLoop params cand = amendedParamCandidate params cand := by
  induction params generalizing cand with
  | nil => rfl
  | cons p rest ih =>
    simp only [paramSchemaLoop, amendedParamCandidate]
    cases hp : p.get "schema" with
    | none => exact ih cand
    | some schema =>
      simp only [String.isEmpty_iff]
      split_ifs with h
      · rfl
      · exact ih _

theorem synthFields_eq_amended (params : List Json) :
    synthFields params = amendedSynthFields params := by
  have step : ∀ (ps : List Json) (acc : List (String × FieldData)),
      ps.foldl (fun fields param =>
        match (param.get "name").bind Json.asStr with
        | some field_name =>
          match (param.get "type").bind Json.asStr with
          | some field_type =>
            insertAM fields field_name
              { field_type := jsTypeOfParam field_type,
                optional := (((param.get "required").bind Json.asBool).map (fun b => !b)).getD true,
                description := none }
          | none => fields
        | none => fields) acc =
      (ps.filterMap (fun param =>
        match (param.get "name").bind Json.asStr with
        | none => none
        | some n =>
          match (param.get "type").bind Json.asStr with
          | none => none
          | some t => some (n,
              { field_type := amendedPrimMap t,
                optional := !(((param.get "required").bind Json.asBool).getD false),
                description := none }))).foldl (fun fields p => insertAM fields p.1 p.2) acc := by
    intro ps
    induction ps with
    | nil => intro acc; rfl
    | cons p rest ih =>
      intro acc
      simp only [List.foldl_cons, List.filterMap_cons]
      cases hn : (p.get "name").bind Json.asStr with
      | none => exact ih acc
      | some n =>
        cases ht : (p.get "type").bind Json.asStr with
        | none => exact ih acc
        | some t =>
          have hopt : (((p.get "required").bind Json.asBool).map (fun b => !b)).getD true =
              !(((p.get "required").bind Json.asBool).getD false) := by
            cases (p.get "required").bind Json.asBool <;> rfl
          have hprim : jsTypeOfParam t = amendedPrimMap t := rfl
          simp only [hopt, hprim]
          exact ih _
  exact step params []

/-- The concrete operation refuting claim C1 as stated: its single
parameter's schema is `\x7b"$ref": "a/"\x7d`, which resolves to the empty
string. -/
def cexOpC1 : Json :=
  Json.obj [("parameters", Json.arr [Json.obj [("schema", Json.obj [("$ref", Json.str "a/")])]])]

/-- C1 counterexample: at `cexOpC1` the claim's priority order picks the
first parameter schema (it resolves to `""`, which is "something other
than `any`"), so the claim yields `""`; the code yields `"any"`. -/
theorem claim_C1_counterexample :
    claimRequestTypeC1 cexOpC1 (emptyService "user") = ""
    ∧ (extract_types cexOpC1 (emptyService "user")).1 = "any"
    ∧ claimRequestTypeC1 cexOpC1 (emptyService "user") ≠
        (extract_types cexOpC1 (emptyService "user")).1 := by
  have e1 : extract_type_name_from_schema (Json.obj [("$ref", Json.str "a/")]) = "" := by
    rw [etn_of_ref (show ((Json.obj [("$ref", Json.str "a/")]).get "$ref").bind Json.asStr =
      some "a/" from rfl)]
    rfl
  have hclaim : claimRequestTypeC1 cexOpC1 (emptyService "user") = "" := by
    simp [claimRequestTypeC1, cexOpC1, Json.get, lookupField, Json.asArr, List.findSome?, e1]
  have hcode : (extract_types cexOpC1 (emptyService "user")).1 = "any" := by
    simp [extract_types, cexOpC1, paramSchemaLoop, Json.get, lookupField, Json.asArr, e1]
    decide
  refine ⟨hclaim, hcode, ?_⟩
  rw [hclaim, hcode]
  decide

/-- C1 amended: the request type is resolved by (a) scanning `parameters`
in order, each schema-bearing parameter's resolution replacing the
candidate and the scan stopping at the first resolution that is neither
empty nor `any`; (b) if the candidate is then exactly `any`, the schema
under `requestBody.content["application/json"]`; (c) if the candidate is
still exactly `any` and `parameters` is a non-empty array, a synthesized
type named Capitalize(service name) ++ "Request" is inserted into the
owning service's type table (fields are the parameters carrying a string
`name` and a string `type`, primitive-mapped with unknown types as `any`,
each optional unless `required` is the boolean `true`) and its name used;
(d) finally an empty candidate is replaced by `any`. -/
theorem claim_C1_amended_request_resolution (operation : Json) (service : Service) :
    ((extract_types operation service).1, (extract_types operation service).2.2) =
      amendedRequestType operation service := by
  simp only [extract_types, amendedRequestType]
  have hcand : (match (operation.get "parameters").bind Json.asArr with
      | some params => paramSchemaLoop params "any"
      | none => "any") =
      amendedParamCandidate (((operation.get "parameters").bind Json.asArr).getD []) "any" := by
    cases h : (operation.get "parameters").bind Json.asArr with
    | none => rfl
    | some params => simp [paramLoop_eq_amended]
  rw [hcand]
  rw [synthFields_eq_amended]
  simp only [String.isEmpty_iff]

/-- C3 amended: the response entry is chosen by preferring key `200`, then
`201`, then `default`, then the first entry in iteration order; within the
chosen entry a `schema` field is resolved directly, else
`content["application/json"].schema`; the response type is `any` when no
entry or no schema is found, and also when the resolved string is empty. -/
theorem claim_C3_amended_response_resolution (operation : Json) (service : Service) :
    (extract_types operation service).2.1 = amendedResponseType operation := by
  simp only [extract_types, amendedResponseType, claimResponseTypeC3]
  simp only [String.isEmpty_iff]

/-- The concrete operation refuting claim C3 as stated: the `200` response
entry's schema is `\x7b"$ref": "x/"\x7d`, which resolves to the empty
string. -/
def cexOpC3 : Json :=
  Json.obj [("responses", Json.obj [("200", Json.obj [("schema",
    Json.obj [("$ref", Json.str "x/")])])])]

/-- C3 counterexample: at `cexOpC3` a response entry and its schema ARE
found, and the claim resolves that schema to `""`; the code nevertheless
produces `"any"`. -/
theorem claim_C3_counterexample :
    claimResponseTypeC3 cexOpC3 = ""
    ∧ (extract_types cexOpC3 (emptyService "s")).2.1 = "any"
    ∧ claimResponseTypeC3 cexOpC3 ≠ (extract_types cexOpC3 (emptyService "s")).2.1 := by
  have e1 : extract_type_name_from_schema (Json.obj [("$ref", Json.str "x/")]) = "" := by
    rw [etn_of_ref (show ((Json.obj [("$ref", Json.str "x/")]).get "$ref").bind Json.asStr =
      some "x/" from rfl)]
    rfl
  have hclaim : claimResponseTypeC3 cexOpC3 = "" := by
    simp [claimResponseTypeC3, cexOpC3, Json.get, lookupField, Json.asObj, e1]
  have hcode : (extract_types cexOpC3 (emptyService "s")).2.1 = "any" := by
    simp [extract_types, cexOpC3, Json.get, lookupField, Json.asObj, Json.asArr, e1]
    decide
  refine ⟨hclaim, hcode, ?_⟩
  rw [hclaim, hcode]
  decide

/-! ### Required-entry panic behaviour (C6) -/

theorem collectRequiredStrs_none {l : List Json} (h : ∃ v ∈ l, Json.asStr v = none) :
    collectRequiredStrs l = none := by
  induction l with
  | nil => simp at h
  | cons x xs ih =>
    rcases h with ⟨v, hv, hn⟩
    rcases List.mem_cons.mp hv with rfl | hv'
    · simp [collectRequiredStrs, hn]
    · cases hx : Json.asStr x with
      | none => simp [collectRequiredStrs, hx]
      | some s => simp [collectRequiredStrs, hx, ih ⟨v, hv', hn⟩]

theorem collectRequiredStrs_some {l : List Json} (h : ∀ v ∈ l, ∃ s, v = Json.str s) :
    ∃ out, collectRequiredStrs l = some out := by
  induction l with
  | nil => exact ⟨[], rfl⟩
  | cons x xs ih =>
    obtain ⟨s, rfl⟩ := h x (List.mem_cons_self x xs)
    obtain ⟨out, hout⟩ := ih (fun v hv => h v (List.mem_cons_of_mem _ hv))
    exact ⟨s :: out, by simp [collectRequiredStrs, Json.asStr, hout]⟩

theorem attachStep_none {name : String} {schema : Json} {services : List Service}
    (hmem : ∃ sv ∈ services, should_include_type name sv.operations = true)
    (hext : extract_type_definition name schema = none) :
    attachStep name schema services = none := by
  induction services with
  | nil => simp at hmem
  | cons sv rest ih =>
    rcases hmem with ⟨w, hw, hincl⟩
    rcases List.mem_cons.mp hw with rfl | hw'
    · simp [attachStep, hincl, hext]
    · by_cases hsv : should_include_type name sv.operations
      · simp [attachStep, hsv, hext]
      · simp [attachStep, hsv, ih ⟨w, hw', hincl⟩]

theorem attachStep_shape {name : String} {schema : Json} {services out : List Service}
    (h : attachStep name schema services = some out) :
    out.map (fun s => (s.name, s.operations)) =
      services.map (fun s => (s.name, s.operations)) := by
  induction services generalizing out with
  | nil => simp [attachStep] at h; subst h; rfl
  | cons sv rest ih =>
    by_cases hsv : should_include_type name sv.operations
    · simp only [attachStep, hsv, if_pos] at h
      cases hext : extract_type_definition name schema with
      | none => rw [hext] at h; cases h
      | some td =>
        rw [hext] at h
        cases hrest : attachStep name schema rest with
        | none => rw [hrest] at h; cases h
        | some r => rw [hrest] at h; cases h; simp [ih hrest]
    · simp only [attachStep, hsv, if_neg, not_false_iff] at h
      cases hrest : attachStep name schema rest with
      | none => rw [hrest] at h; cases h
      | some r => rw [hrest] at h; cases h; simp [ih hrest]

theorem attachPass_propagates_none {schemas : List (String × Json)}
    {services : List Service} {name : String} {schema : Json}
    (hmem : (name, schema) ∈ schemas)
    (hsv : ∃ sv ∈ services, should_include_type name sv.operations = true)
    (hext : extract_type_definition name schema = none) :
    attachPass schemas services = none := by
  induction schemas generalizing services with
  | nil => simp at hmem
  | cons hd rest ih =>
    rcases List.mem_cons.mp hmem with rfl | hmem'
    · simp [attachPass, attachStep_none hsv hext]
    · obtain ⟨n0, s0⟩ := hd
      simp only [attachPass]
      cases hstep : attachStep n0 s0 services with
      | none => rfl
      | some out =>
        rcases hsv with ⟨w, hw, hincl⟩
        have hshape := attachStep_shape hstep
        have hwmem : (w.name, w.operations) ∈
            services.map (fun s => (s.name, s.operations)) :=
          List.mem_map.mpr ⟨w, hw, rfl⟩
        rw [← hshape] at hwmem
        obtain ⟨w', hw', hval⟩ := List.mem_map.mp hwmem
        have : should_include_type name w'.operations = true := by
          have : w'.operations = w.operations := congrArg Prod.snd hval
          rw [this]; exact hincl
        exact ih hmem' ⟨w', hw', this⟩

/-- C6: with a `properties` object present, a non-string entry in the
schema's `required` array makes `extract_type_definition` abort (the
`expect` panic, `none` in the model), and that abort propagates to the
whole parse instead of the entry being skipped; when every `required`
entry is a string, extraction always succeeds. -/
theorem claim_C6_required_entry_panic :
    (∀ (name : String) (schema : Json) (props : List (String × Json)),
        (schema.get "properties").bind Json.asObj = some props →
        (∃ v ∈ ((schema.get "required").bind Json.asArr).getD [], Json.asStr v = none) →
        extract_type_definition name schema = none)
    ∧ (∀ (name : String) (schema : Json),
        (∀ v ∈ ((schema.get "required").bind Json.asArr).getD [], ∃ s, v = Json.str s) →
        ∃ td, extract_type_definition name schema = some td)
    ∧ (∀ (schemas : List (String × Json)) (services : List Service)
        (name : String) (schema : Json),
        (name, schema) ∈ schemas →
        (∃ sv ∈ services, should_include_type name sv.operations = true) →
        extract_type_definition name schema = none →
        attachPass schemas services = none) := by
  refine ⟨?_, ?_, fun _ _ _ _ h1 h2 h3 => attachPass_propagates_none h1 h2 h3⟩
  · intro name schema props hprops hbad
    have hc := collectRequiredStrs_none hbad
    simp [extract_type_definition, hprops, hc]
  · intro name schema hall
    cases hp : (schema.get "properties").bind Json.asObj with
    | none =>
      exact ⟨{ name := name, fields := [],
               description := (schema.get "description").bind Json.asStr },
        by simp [extract_type_definition, hp]⟩
    | some props =>
      obtain ⟨out, hout⟩ := collectRequiredStrs_some hall
      exact ⟨{ name := name,
               fields := props.foldl (fun fields p => insertAM fields p.1
                 { field_type := extract_type_name_from_schema p.2,
                   optional := !out.contains p.1, description := none }) [],
               description := (schema.get "description").bind Json.asStr },
        by simp [extract_type_definition, hp, hout]⟩

/-- Witness for C6 at concrete schemas: `\x7b"properties": \x7b\x7d,
"required": [3]\x7d` panics; `\x7b"properties": \x7b\x7d, "required":
["name"]\x7d` succeeds. -/
theorem claim_C6_required_entry_panic_witness :
    ((Json.obj [("properties", Json.obj []), ("required", Json.arr [Json.num 3])]).get
        "properties").bind Json.asObj = some []
    ∧ (∃ v ∈ (((Json.obj [("properties", Json.obj []), ("required", Json.arr [Json.num 3])]).get
        "required").bind Json.asArr).getD [], Json.asStr v = none)
    ∧ extract_type_definition "User"
        (Json.obj [("properties", Json.obj []), ("required", Json.arr [Json.num 3])]) = none
    ∧ (∃ td, extract_type_definition "User"
        (Json.obj [("properties", Json.obj []), ("required", Json.arr [Json.str "name"])]) =
          some td) := by
  refine ⟨rfl, ⟨Json.num 3, List.mem_singleton.mpr rfl, rfl⟩, ?_, ?_⟩
  · exact claim_C6_required_entry_panic.1 "User"
      (Json.obj [("properties", Json.obj []), ("required", Json.arr [Json.num 3])]) []
      rfl ⟨Json.num 3, List.mem_singleton.mpr rfl, rfl⟩
  · exact claim_C6_required_entry_panic.2.1 "User"
      (Json.obj [("properties", Json.obj []), ("required", Json.arr [Json.str "name"])])
      (fun v hv => ⟨"name", List.mem_singleton.mp hv⟩)

/-! ### The type-attachment pass (C5) -/

theorem charListLt_iff_lt : ∀ (as bs : List Char), charListLt as bs = true ↔ as.lt bs := by
  intro as
  induction as with
  | nil =>
    intro bs
    cases bs with
    | nil =>
      constructor
      · intro h; exact absurd h (by rw [charListLt]; exact Bool.noConfusion)
      · intro h; cases h
    | cons b bs =>
      constructor
      · intro _; exact List.lt.nil b bs
      · intro _; rfl
  | cons a as ih =>
    intro bs
    cases bs with
    | nil =>
      constructor
      · intro h; rw [charListLt] at h; exact Bool.noConfusion h
      · intro h; cases h
    | cons b bs =>
      rw [charListLt]
      rcases Nat.lt_trichotomy a.toNat b.toNat with h1 | h1 | h1
      · rw [if_pos h1]
        constructor
        · intro _; exact List.lt.head _ _ h1
        · intro _; rfl
      · have hne1 : ¬ a.toNat < b.toNat := by omega
        have hne2 : ¬ b.toNat < a.toNat := by omega
        rw [if_neg hne1, if_neg hne2]
        have hab : a = b := Char.ext (UInt32.ext h1)
        subst hab
        rw [ih bs]
        constructor
        · intro h
          exact List.lt.tail (fun hc => Nat.lt_irrefl _ hc) (fun hc => Nat.lt_irrefl _ hc) h
        · intro h
          cases h with
          | head _ _ hlt => exact absurd hlt (Nat.lt_irrefl _)
          | tail _ _ htl => exact htl
      · have hne1 : ¬ a.toNat < b.toNat := by omega
        rw [if_neg hne1, if_pos h1]
        constructor
        · intro h; exact Bool.noConfusion h
        · intro h
          cases h with
          | head _ _ hlt => exact absurd hlt hne1
          | tail _ hn2 _ => exact absurd h1 hn2

theorem strLtB_iff (a b : String) : strLtB a b = true ↔ a < b := by
  rw [String.lt_iff_toList_lt]
  have h2 : (String.toList a < String.toList b) ↔ List.Lex (· < ·) a.data b.data := Iff.rfl
  rw [h2, ← List.lt_iff_lex_lt]
  exact charListLt_iff_lt a.data b.data

theorem strLtB_false_of_not_lt {a b : String} (h : ¬ a < b) : strLtB a b = false := by
  cases hx : strLtB a b
  · rfl
  · exact absurd ((strLtB_iff a b).mp hx) h

theorem strLtB_irrefl (a : String) : strLtB a a = false :=
  strLtB_false_of_not_lt (lt_irrefl a)

theorem lookupAM_insertAM {α : Type} (m : List (String × α)) (k : String) (v : α)
    (k' : String) :
    lookupAM (insertAM m k v) k' = if k' = k then some v else lookupAM m k' := by
  induction m with
  | nil => simp [insertAM, lookupAM]
  | cons hd rest ih =>
    obtain ⟨k0, v0⟩ := hd
    simp only [insertAM]
    by_cases h1 : strLtB k k0 = true
    · simp only [if_pos h1, lookupAM]
    · by_cases h2 : k = k0
      · subst h2
        simp only [if_neg h1, if_pos rfl, lookupAM]
        by_cases h3 : k' = k <;> simp [h3]
      · simp only [if_neg h1, if_neg h2, lookupAM, ih]
        by_cases h3 : k' = k0
        · subst h3
          have hne : k' ≠ k := fun e => h2 e.symm
          simp [hne]
        · simp [h3]

/-- The element-wise relation established by the type-attachment pass over
a list of schemas (see claim C5): operations are untouched; for every
schema binding, a service whose operations mention the schema name as a
substring of a request/response type ends up with exactly the extracted
definition under that name (overwriting any earlier entry), and a service
with no such operation keeps its previous entry for that name; entries
under names without a schema binding are untouched. -/
def attachRel (schemas : List (String × Json)) (sv sv' : Service) : Prop :=
  sv'.name = sv.name ∧ sv'.operations = sv.operations ∧
  (∀ k, k ∉ schemas.map Prod.fst →
    lookupAM sv'.type_definitions k = lookupAM sv.type_definitions k) ∧
  ∀ name schema, (name, schema) ∈ schemas →
    (should_include_type name sv.operations = true →
      ∃ td, extract_type_definition name schema = some td ∧
        lookupAM sv'.type_definitions name = some td) ∧
    (should_include_type name sv.operations = false →
      lookupAM sv'.type_definitions name = lookupAM sv.type_definitions name)

theorem attachStep_elem {name : String} {schema : Json} {services out : List Service}
    (h : attachStep name schema services = some out) :
    List.Forall₂ (fun sv sv' =>
      sv'.name = sv.name ∧ sv'.operations = sv.operations ∧
      ((should_include_type name sv.operations = true ∧
          ∃ td, extract_type_definition name schema = some td ∧
            sv'.type_definitions = insertAM sv.type_definitions name td)
        ∨ (should_include_type name sv.operations = false ∧
          sv'.type_definitions = sv.type_definitions))) services out := by
  induction services generalizing out with
  | nil => simp [attachStep] at h; subst h; exact .nil
  | cons sv rest ih =>
    by_cases hsv : should_include_type name sv.operations
    · rw [attachStep, if_pos hsv] at h
      rcases Option.bind_eq_some.mp h with ⟨td, hext, hmap⟩
      rcases Option.map_eq_some'.mp hmap with ⟨r, hrest, hout⟩
      subst hout
      exact .cons ⟨rfl, rfl, Or.inl ⟨hsv, td, hext, rfl⟩⟩ (ih hrest)
    · rw [attachStep, if_neg hsv] at h
      rcases Option.map_eq_some'.mp h with ⟨r, hrest, hout⟩
      subst hout
      exact .cons ⟨rfl, rfl, Or.inr ⟨by simpa using hsv, rfl⟩⟩ (ih hrest)

theorem forall₂_comp {α β γ : Type} {R : α → β → Prop} {S : β → γ → Prop}
    {T : α → γ → Prop} (hT : ∀ a b c, R a b → S b c → T a c) :
    ∀ {l : List α} {m : List β} {n : List γ},
      List.Forall₂ R l m → List.Forall₂ S m n → List.Forall₂ T l n := by
  intro l m n h1 h2
  induction h1 generalizing n with
  | nil => cases h2; exact .nil
  | cons hr _ ih => cases h2 with | cons hs ht => exact .cons (hT _ _ _ hr hs) (ih ht)

/-- C5: after the aggregation pass (with distinct schema names, as in a
JSON object), each service is element-wise related to its input state by
`attachRel`: a schema-derived definition is present exactly for the
(schema name, service) pairs where some operation's request or response
type contains the schema name as a substring — where it equals the
extracted definition, overwriting any same-named earlier entry — and every
other entry is unchanged from before the pass. -/
theorem claim_C5_substring_attachment {schemas : List (String × Json)}
    {services out : List Service}
    (hnd : (schemas.map Prod.fst).Nodup)
    (h : attachPass schemas services = some out) :
    List.Forall₂ (attachRel schemas) services out := by
  induction schemas generalizing services with
  | nil =>
    simp [attachPass] at h
    subst h
    refine List.forall₂_same.mpr (fun sv _ => ⟨rfl, rfl, fun k _ => rfl, ?_⟩)
    intro name schema hmem
    simp at hmem
  | cons hd rest ih =>
    obtain ⟨n0, s0⟩ := hd
    simp only [attachPass] at h
    cases hstep : attachStep n0 s0 services with
    | none => rw [hstep] at h; cases h
    | some mid =>
      rw [hstep] at h
      rw [List.map_cons] at hnd
      have hnd0 := List.nodup_cons.mp hnd
      have hn0 : n0 ∉ rest.map Prod.fst := hnd0.1
      have h1 := attachStep_elem hstep
      have h2 := ih hnd0.2 h
      refine forall₂_comp ?_ h1 h2
      intro sv svm sv' hr hs
      obtain ⟨hname1, hops1, hcase⟩ := hr
      obtain ⟨hname2, hops2, hframe2, hmain2⟩ := hs
      refine ⟨hname2.trans hname1, hops2.trans hops1, ?_, ?_⟩
      · intro k hk
        simp only [List.map_cons, List.mem_cons] at hk
        push_neg at hk
        obtain ⟨hk0, hkrest⟩ := hk
        have e1 : lookupAM sv'.type_definitions k = lookupAM svm.type_definitions k :=
          hframe2 k hkrest
        rcases hcase with ⟨_, td, _, htd⟩ | ⟨_, htd⟩
        · rw [e1, htd, lookupAM_insertAM]
          simp [hk0]
        · rw [e1, htd]
      · intro name schema hmem
        rcases List.mem_cons.mp hmem with heq | hmem'
        · have e1 : name = n0 := congrArg Prod.fst heq
          have e2 : schema = s0 := congrArg Prod.snd heq
          subst e1
          subst e2
          constructor
          · intro hincl
            rcases hcase with ⟨_, td, hext, htd⟩ | ⟨hninc, _⟩
            · refine ⟨td, hext, ?_⟩
              have e1 := hframe2 name hn0
              rw [e1, htd, lookupAM_insertAM]
              simp
            · rw [hincl] at hninc; cases hninc
          · intro hninc
            rcases hcase with ⟨hincl, _⟩ | ⟨_, htd⟩
            · rw [hninc] at hincl; cases hincl
            · have e1 := hframe2 name hn0
              rw [e1, htd]
        · have hm := hmain2 name schema hmem'
          rw [hops1] at hm
          have hname_ne : name ≠ n0 := by
            intro e
            subst e
            exact hn0 (List.mem_map.mpr ⟨(name, schema), hmem', rfl⟩)
          constructor
          · intro hincl
            exact hm.1 hincl
          · intro hninc
            have e2 := hm.2 hninc
            rw [e2]
            rcases hcase with ⟨_, td, _, htd⟩ | ⟨_, htd⟩
            · rw [htd, lookupAM_insertAM]
              simp [hname_ne]
            · rw [htd]

/-- The concrete schema list, input service and output service for the C5
witness. -/
def c5WitnessSchemas : List (String × Json) :=
  [("User", Json.obj [("properties", Json.obj [])])]

/-- The single operation of the C5 witness service; its request type
`UserRequest` contains the schema name `User` as a substring. -/
def c5WitnessOp : ApiOperation :=
  { path := "/u", method := "GET", function_name := "f",
    request_type := "UserRequest", response_type := "any", operation_id := none }

/-- The C5 witness service before the pass. -/
def c5WitnessIn : Service :=
  { name := "user", operations := [c5WitnessOp], type_definitions := [] }

/-- The C5 witness service after the pass. -/
def c5WitnessOut : Service :=
  { name := "user", operations := [c5WitnessOp],
    type_definitions := [("User", { name := "User", fields := [], description := none })] }

/-- Witness for C5: one schema `User` with empty properties, one service
`user` whose operation request type `UserRequest` contains `User`. -/
theorem claim_C5_substring_attachment_witness :
    (c5WitnessSchemas.map Prod.fst).Nodup
    ∧ attachPass c5WitnessSchemas [c5WitnessIn] = some [c5WitnessOut]
    ∧ List.Forall₂ (attachRel c5WitnessSchemas) [c5WitnessIn] [c5WitnessOut] :=
  ⟨by simp [c5WitnessSchemas], rfl,
    claim_C5_substring_attachment (by simp [c5WitnessSchemas]) rfl⟩

/-! ### File naming (C10) -/

theorem charOfNat_toNat {n : Nat} (h : n < 55296) : (Char.ofNat n).toNat = n := by
  unfold Char.ofNat
  rw [dif_pos (Or.inl h)]
  rfl

theorem lowerChar_ne_C (c : Char) : lowerChar c ≠ 'C' := by
  unfold lowerChar
  split_ifs with h
  · intro e
    have h1 : (Char.ofNat (c.toNat + 32)).toNat = c.toNat + 32 :=
      charOfNat_toNat (by omega)
    rw [e] at h1
    have h2 : ('C' : Char).toNat = 67 := by decide
    omega
  · intro e
    subst e
    exact h (by decide)

theorem toLower_not_endsWith_Controller (s : String) :
    endsWithStr (toLowerStr s) "Controller" = false := by
  rw [endsWithStr]
  by_contra hne
  have hb : ("Controller".data).isSuffixOf (toLowerStr s).data = true :=
    Bool.not_eq_false _ |>.mp hne
  have hsuf := List.isSuffixOf_iff_suffix.mp hb
  have hmem : 'C' ∈ (toLowerStr s).data := hsuf.subset (by decide)
  rw [toLowerStr] at hmem
  obtain ⟨c, _, hc⟩ := List.mem_map.mp hmem
  exact lowerChar_ne_C c hc

/-- C10: the emitted file name is Capitalize(service name) ++
"Controller.ts" for every service, because the guard compares a lower-cased
name against the mixed-case literal "Controller" and is therefore false for
every input; in particular the tag `usercontroller` still receives a second
`Controller` suffix. -/
theorem claim_C10_unconditional_controller_suffix :
    (∀ service : Service,
        serviceFileName service = capitalize service.name ++ "Controller.ts")
    ∧ (∀ s : String, endsWithStr (toLowerStr s) "Controller" = false)
    ∧ serviceFileName { name := "usercontroller", operations := [], type_definitions := [] } =
        "UsercontrollerController.ts" := by
  refine ⟨?_, toLower_not_endsWith_Controller, ?_⟩
  · intro service
    rw [serviceFileName]
    rw [toLower_not_endsWith_Controller]
    simp only [Bool.false_eq_true, if_false]
    rw [String.append_assoc]
    rfl
  · rfl

/-! ### One combined output file per service (C9) -/

theorem head?_dropWhile_not {α : Type} (p : α → Bool) (l : List α) {x : α}
    (h : (l.dropWhile p).head? = some x) : p x = false := by
  induction l with
  | nil => simp [List.dropWhile] at h
  | cons a t ih =>
    by_cases hp : p a
    · rw [List.dropWhile_cons_of_pos hp] at h
      exact ih h
    · rw [List.dropWhile_cons_of_neg hp] at h
      cases h
      simpa using hp

theorem endsWith_newline_append (t : String) :
    endsWithStr (t ++ "\n") "\n" = true := by
  rw [endsWithStr]
  apply List.isSuffixOf_iff_suffix.mpr
  exact ⟨t.data, rfl⟩

theorem not_endsWith_double_newline (t : String)
    (ht : ∀ x, t.data.reverse.head? = some x → Char.isWhitespace x = false) :
    endsWithStr (t ++ "\n") "\n\n" = false := by
  rw [endsWithStr, Bool.eq_false_iff]
  intro hb
  have hsuf := List.isSuffixOf_iff_suffix.mp hb
  have hpre := List.reverse_prefix.mpr hsuf
  have e1 : ("\n\n" : String).data.reverse = ['\n', '\n'] := rfl
  have e2 : ((t ++ "\n").data).reverse = '\n' :: t.data.reverse := by
    show (t.data ++ ['\n']).reverse = _
    rw [List.reverse_append]
    rfl
  rw [e1, e2] at hpre
  obtain ⟨rest, hrest⟩ := (List.cons_prefix_cons.mp hpre).2
  have hhead : t.data.reverse.head? = some '\n' := by rw [← hrest]; rfl
  have hw := ht '\n' hhead
  simp at hw

theorem typesContent_single_newline (service : Service) :
    endsWithStr (typesContent service) "\n" = true
    ∧ endsWithStr (typesContent service) "\n\n" = false := by
  constructor
  · exact endsWith_newline_append _
  · apply not_endsWith_double_newline
    intro x hx
    simp only [trimEndStr, List.reverse_reverse] at hx
    exact head?_dropWhile_not _ _ hx

theorem write_service_to_file_at (fs : FS) (path : String) (service : Service)
    (request_lib api_prefix : String) :
    write_service_to_file fs path service request_lib api_prefix path =
      some (apiContent service request_lib api_prefix ++ typesContent service) := by
  simp [write_service_to_file, write_types_file, write_api_file_with_request_lib, fsWrite]

theorem write_service_to_file_other (fs : FS) (path : String) (service : Service)
    (request_lib api_prefix : String) {q : String} (hq : q ≠ path) :
    write_service_to_file fs path service request_lib api_prefix q = fs q := by
  simp [write_service_to_file, write_types_file, write_api_file_with_request_lib,
    fsWrite, hq]

/-- C9: writing a service writes the API content first, overwriting
whatever the path held, then appends the types content to the same path:
afterwards that one path holds exactly API content ++ types content, every
other path is untouched, and the types content ends in exactly one
trailing newline. -/
theorem claim_C9_single_combined_file (fs : FS) (path : String) (service : Service)
    (request_lib api_prefix : String) :
    write_service_to_file fs path service request_lib api_prefix path =
      some (apiContent service request_lib api_prefix ++ typesContent service)
    ∧ (∀ q, q ≠ path →
        write_service_to_file fs path service request_lib api_prefix q = fs q)
    ∧ endsWithStr (typesContent service) "\n" = true
    ∧ endsWithStr (typesContent service) "\n\n" = false :=
  ⟨write_service_to_file_at fs path service request_lib api_prefix,
    fun _ hq => write_service_to_file_other fs path service request_lib api_prefix hq,
    (typesContent_single_newline service).1,
    (typesContent_single_newline service).2⟩

/-- Witness for C9 at a concrete empty file system, service and paths. -/
theorem claim_C9_single_combined_file_witness :
    ("Q.ts" : String) ≠ "P.ts"
    ∧ write_service_to_file (fun _ => none) "P.ts" (emptyService "user") "lib" "" "Q.ts" =
        (fun _ => (none : Option String)) "Q.ts" :=
  ⟨by decide,
    (claim_C9_single_combined_file (fun _ => none) "P.ts" (emptyService "user") "lib" "").2.1
      "Q.ts" (by decide)⟩

/-! ### Determinism (C8) -/

theorem write_services_agree (services : List Service) (root lib pre : String)
    (fs₁ fs₂ : FS) (p : String)
    (h : fs₁ p = fs₂ p ∨ p ∈ services.map (fun sv => root ++ "/" ++ serviceFileName sv)) :
    write_services fs₁ root services lib pre p = write_services fs₂ root services lib pre p := by
  induction services generalizing fs₁ fs₂ with
  | nil =>
    rcases h with h | h
    · exact h
    · simp at h
  | cons sv rest ih =>
    simp only [write_services, List.foldl_cons]
    show write_services _ root rest lib pre p = write_services _ root rest lib pre p
    apply ih
    by_cases hp : p = root ++ "/" ++ serviceFileName sv
    · left
      subst hp
      rw [write_service, write_service, write_service_to_file_at, write_service_to_file_at]
    · rcases h with h | hmem
      · left
        rw [write_service, write_service, write_service_to_file_other _ _ _ _ _ hp,
          write_service_to_file_other _ _ _ _ _ hp]
        exact h
      · rw [List.map_cons, List.mem_cons] at hmem
        rcases hmem with heq | hmem'
        · exact absurd heq hp
        · right
          exact hmem'

/-- C8: the pipeline is deterministic.  Parsing is a pure function of
(document, tag filter); the emitted text is a pure function of the Service
value; and the contents written at every service's output path are
independent of the pre-existing file-system state, so two runs on an
identical document and configuration produce byte-identical output files. -/
theorem claim_C8_deterministic_pipeline :
    (∀ (doc₁ doc₂ : Json) (tf₁ tf₂ : Option (List String)), doc₁ = doc₂ → tf₁ = tf₂ →
      parse_swagger doc₁ tf₁ = parse_swagger doc₂ tf₂)
    ∧ (∀ (sv₁ sv₂ : Service) (lib pre : String), sv₁ = sv₂ →
        apiContent sv₁ lib pre = apiContent sv₂ lib pre ∧
          typesContent sv₁ = typesContent sv₂)
    ∧ (∀ (services : List Service) (root lib pre : String) (fs₁ fs₂ : FS) (sv : Service),
        sv ∈ services →
        write_services fs₁ root services lib pre (root ++ "/" ++ serviceFileName sv) =
          write_services fs₂ root services lib pre (root ++ "/" ++ serviceFileName sv)) := by
  refine ⟨fun _ _ _ _ h1 h2 => by rw [h1, h2], fun _ _ _ _ h => by rw [h]; exact ⟨rfl, rfl⟩, ?_⟩
  intro services root lib pre fs₁ fs₂ sv hsv
  exact write_services_agree services root lib pre fs₁ fs₂ _
    (Or.inr (List.mem_map.mpr ⟨sv, hsv, rfl⟩))

/-- Witness for C8: two runs over the same single service starting from
different file systems agree at the service's output path. -/
theorem claim_C8_deterministic_pipeline_witness :
    emptyService "user" ∈ [emptyService "user"]
    ∧ write_services (fun _ => none) "out" [emptyService "user"] "lib" ""
        ("out" ++ "/" ++ serviceFileName (emptyService "user")) =
      write_services (fun _ => some "stale") "out" [emptyService "user"] "lib" ""
        ("out" ++ "/" ++ serviceFileName (emptyService "user")) :=
  ⟨List.mem_singleton.mpr rfl,
    claim_C8_deterministic_pipeline.2.2 [emptyService "user"] "out" "lib" ""
      (fun _ => none) (fun _ => some "stale") (emptyService "user")
      (List.mem_singleton.mpr rfl)⟩

/-! ### Tag filtering (C7): service-map invariants -/

/-- Sortedness of the service map's keys. -/
def SortedKeys (m : List (String × Service)) : Prop :=
  m.Pairwise (fun a b => a.1 < b.1)

/-- Every service in the map is stored under its own name. -/
def NamesOk (m : List (String × Service)) : Prop :=
  ∀ kv ∈ m, kv.2.name = kv.1

/-- The restriction of a service map to the keys of a tag allow-list. -/
def filterKeys (fs : List String) (m : List (String × Service)) :
    List (String × Service) :=
  m.filter (fun kv => fs.contains kv.1)

theorem extract_types_preserves (op : Json) (sv : Service) :
    (extract_types op sv).2.2.name = sv.name ∧
      (extract_types op sv).2.2.operations = sv.operations := by
  simp only [extract_types]
  split_ifs <;> simp

theorem update_front {m : List (String × Service)} {name : String} {f : Service → Service}
    (h : ∀ kv ∈ m, name < kv.1) :
    updateServiceMap m name f = (name, f (emptyService name)) :: m := by
  cases m with
  | nil => rfl
  | cons hd rest =>
    have := h hd (List.mem_cons_self hd rest)
    rw [updateServiceMap]
    simp [(strLtB_iff _ _).mpr this]

theorem update_keys {m : List (String × Service)} {name : String} {f : Service → Service} :
    ∀ kv ∈ updateServiceMap m name f, kv.1 = name ∨ kv.1 ∈ m.map Prod.fst := by
  induction m with
  | nil => intro kv hkv; simp [updateServiceMap] at hkv; simp [hkv]
  | cons hd rest ih =>
    obtain ⟨k, v⟩ := hd
    intro kv hkv
    rw [updateServiceMap] at hkv
    split_ifs at hkv with h1 h2
    · rcases List.mem_cons.mp hkv with rfl | hkv'
      · left; rfl
      · right; exact List.mem_map.mpr ⟨kv, hkv', rfl⟩
    · rcases List.mem_cons.mp hkv with rfl | hkv'
      · right; simp
      · right; simp [List.mem_map.mpr ⟨kv, hkv', rfl⟩]
    · rcases List.mem_cons.mp hkv with rfl | hkv'
      · right; simp
      · rcases ih kv hkv' with h | h
        · left; exact h
        · right; simp [h]

theorem update_sorted {m : List (String × Service)} (hs : SortedKeys m)
    (name : String) (f : Service → Service) :
    SortedKeys (updateServiceMap m name f) := by
  induction m with
  | nil => simp [updateServiceMap, SortedKeys]
  | cons hd rest ih =>
    obtain ⟨k, v⟩ := hd
    rw [SortedKeys, List.pairwise_cons] at hs
    obtain ⟨hk, hrest⟩ := hs
    rw [updateServiceMap]
    split_ifs with h1 h2
    · refine List.Pairwise.cons ?_ (List.Pairwise.cons hk hrest)
      intro kv hkv
      rcases List.mem_cons.mp hkv with rfl | hkv'
      · exact (strLtB_iff _ _).mp h1
      · exact lt_trans ((strLtB_iff _ _).mp h1) (hk kv hkv')
    · exact List.Pairwise.cons hk hrest
    · refine List.Pairwise.cons ?_ (ih hrest)
      intro kv hkv
      rcases update_keys kv hkv with he | hm
      · rw [he]
        rcases lt_trichotomy name k with hlt | heq | hgt
        · exact absurd ((strLtB_iff _ _).mpr hlt) h1
        · exact absurd heq h2
        · exact hgt
      · obtain ⟨kv', hkv', he⟩ := List.mem_map.mp hm
        rw [← he]
        exact hk kv' hkv'

end Ropenapi

namespace Ropenapi

theorem update_namesOk {m : List (String × Service)} {name : String} {f : Service → Service}
    (hm : NamesOk m) (hf : ∀ sv, (f sv).name = sv.name) :
    NamesOk (updateServiceMap m name f) := by
  induction m with
  | nil =>
    intro kv hkv
    simp [updateServiceMap] at hkv
    subst hkv
    simp [hf, emptyService]
  | cons hd rest ih =>
    obtain ⟨k, v⟩ := hd
    intro kv hkv
    rw [updateServiceMap] at hkv
    have hhd : v.name = k := hm (k, v) (List.mem_cons_self _ _)
    have hrest : NamesOk rest := fun kv hkv => hm kv (List.mem_cons_of_mem _ hkv)
    split_ifs at hkv with h1 h2
    · rcases List.mem_cons.mp hkv with rfl | hkv'
      · simp [hf, emptyService]
      · exact hm kv hkv'
    · rcases List.mem_cons.mp hkv with rfl | hkv'
      · simp [hf, hhd]
      · exact hrest kv hkv'
    · rcases List.mem_cons.mp hkv with rfl | hkv'
      · exact hhd
      · exact ih hrest kv hkv'

theorem mem_keys_update_self {m : List (String × Service)} (name : String)
    (f : Service → Service) :
    name ∈ (updateServiceMap m name f).map Prod.fst := by
  induction m with
  | nil => simp [updateServiceMap]
  | cons hd rest ih =>
    obtain ⟨k, v⟩ := hd
    rw [updateServiceMap]
    split_ifs with h1 h2
    · simp
    · simp [h2]
    · simp only [List.map_cons, List.mem_cons]
      right
      exact ih

theorem mem_keys_update_mono {m : List (String × Service)} {k : String}
    (hk : k ∈ m.map Prod.fst) (name : String) (f : Service → Service) :
    k ∈ (updateServiceMap m name f).map Prod.fst := by
  induction m with
  | nil => simp at hk
  | cons hd rest ih =>
    obtain ⟨k0, v0⟩ := hd
    rw [updateServiceMap]
    rw [List.map_cons, List.mem_cons] at hk
    split_ifs with h1 h2
    · rcases hk with rfl | hk'
      · simp
      · simp only [List.map_cons, List.mem_cons]
        right; right
        exact hk'
    · rcases hk with rfl | hk'
      · simp [h2]
      · simp only [List.map_cons, List.mem_cons]
        right
        exact hk'
    · rcases hk with rfl | hk'
      · simp
      · simp only [List.map_cons, List.mem_cons]
        right
        exact ih hk'

theorem updateServiceMap_cons_lt {k : String} {v : Service}
    {rest : List (String × Service)} {name : String} {f : Service → Service}
    (h : name < k) :
    updateServiceMap ((k, v) :: rest) name f
      = (name, f (emptyService name)) :: (k, v) :: rest := by
  rw [updateServiceMap]
  simp [(strLtB_iff _ _).mpr h]

theorem updateServiceMap_cons_eq {k : String} {v : Service}
    {rest : List (String × Service)} {f : Service → Service} :
    updateServiceMap ((k, v) :: rest) k f = (k, f v) :: rest := by
  rw [updateServiceMap]
  simp [strLtB_irrefl]

theorem updateServiceMap_cons_gt {k : String} {v : Service}
    {rest : List (String × Service)} {name : String} {f : Service → Service}
    (h : k < name) :
    updateServiceMap ((k, v) :: rest) name f = (k, v) :: updateServiceMap rest name f := by
  rw [updateServiceMap]
  have h1 : strLtB name k = false := strLtB_false_of_not_lt (asymm h)
  have h2 : name ≠ k := ne_of_gt h
  simp [h1, h2]

theorem filterKeys_cons_pos {fs : List String} {k : String} {v : Service}
    {rest : List (String × Service)} (h : fs.contains k = true) :
    List.filter (fun kv => fs.contains kv.1) ((k, v) :: rest) =
      (k, v) :: List.filter (fun kv => fs.contains kv.1) rest :=
  List.filter_cons_of_pos h

theorem filterKeys_cons_neg {fs : List String} {k : String} {v : Service}
    {rest : List (String × Service)} (h : fs.contains k = false) :
    List.filter (fun kv => fs.contains kv.1) ((k, v) :: rest) =
      List.filter (fun kv => fs.contains kv.1) rest :=
  List.filter_cons_of_neg (by
    show ¬ fs.contains k = true
    intro he
    rw [he] at h
    exact Bool.noConfusion h)

theorem contains_false_of_not {fs : List String} {k : String}
    (h : ¬ fs.contains k = true) : fs.contains k = false := by
  cases hx : fs.contains k
  · rfl
  · exact absurd hx h

theorem filterKeys_update_in {fs : List String} {m : List (String × Service)}
    {name : String} (hs : SortedKeys m) (hin : fs.contains name = true)
    (f : Service → Service) :
    filterKeys fs (updateServiceMap m name f) =
      updateServiceMap (filterKeys fs m) name f := by
  induction m with
  | nil =>
    simp only [filterKeys, updateServiceMap, List.filter_nil]
    rw [filterKeys_cons_pos hin, List.filter_nil]
  | cons hd rest ih =>
    obtain ⟨k, v⟩ := hd
    rw [SortedKeys, List.pairwise_cons] at hs
    obtain ⟨hk, hrest⟩ := hs
    simp only [filterKeys] at ih ⊢
    rcases lt_trichotomy name k with h1 | h1 | h1
    · rw [updateServiceMap_cons_lt h1]
      by_cases hck : fs.contains k = true
      · rw [filterKeys_cons_pos hin, filterKeys_cons_pos hck, updateServiceMap_cons_lt h1]
      · have hck' := contains_false_of_not hck
        rw [filterKeys_cons_pos hin, filterKeys_cons_neg hck']
        rw [update_front]
        intro kv hkv
        exact lt_trans h1 (hk kv (List.mem_filter.mp hkv).1)
    · subst h1
      rw [updateServiceMap_cons_eq, filterKeys_cons_pos hin,
        filterKeys_cons_pos hin, updateServiceMap_cons_eq]
    · rw [updateServiceMap_cons_gt h1]
      by_cases hck : fs.contains k = true
      · rw [filterKeys_cons_pos hck, filterKeys_cons_pos hck, ih hrest,
          updateServiceMap_cons_gt h1]
      · have hck' := contains_false_of_not hck
        rw [filterKeys_cons_neg hck', filterKeys_cons_neg hck']
        exact ih hrest

theorem filterKeys_update_out {fs : List String} {m : List (String × Service)}
    {name : String} (hs : SortedKeys m) (hout : fs.contains name = false)
    (f : Service → Service) :
    filterKeys fs (updateServiceMap m name f) = filterKeys fs m := by
  induction m with
  | nil =>
    simp only [filterKeys, updateServiceMap, List.filter_nil]
    rw [filterKeys_cons_neg hout, List.filter_nil]
  | cons hd rest ih =>
    obtain ⟨k, v⟩ := hd
    rw [SortedKeys, List.pairwise_cons] at hs
    obtain ⟨hk, hrest⟩ := hs
    simp only [filterKeys] at ih ⊢
    rcases lt_trichotomy name k with h1 | h1 | h1
    · rw [updateServiceMap_cons_lt h1, filterKeys_cons_neg hout]
    · subst h1
      rw [updateServiceMap_cons_eq, filterKeys_cons_neg hout, filterKeys_cons_neg hout]
    · rw [updateServiceMap_cons_gt h1]
      by_cases hck : fs.contains k = true
      · rw [filterKeys_cons_pos hck, filterKeys_cons_pos hck, ih hrest]
      · have hck' := contains_false_of_not hck
        rw [filterKeys_cons_neg hck', filterKeys_cons_neg hck']
        exact ih hrest

/-! ### Tag filtering (C7): the parse-level theorems -/

theorem methodStep_updater_name (operation : Json) (path method : String) (sv : Service) :
    ((fun service =>
        let (api_op, service) := parse_operation operation path method service
        { service with operations := service.operations ++ [api_op] }) sv).name = sv.name := by
  have hp := extract_types_preserves operation sv
  rcases he : extract_types operation sv with ⟨rt, resp, sv'⟩
  rw [he] at hp
  simp only [parse_operation, he]
  exact hp.1

theorem methodStep_sorted (tf : Option (List String)) (path method : String)
    (operation : Json) {m : List (String × Service)} (hs : SortedKeys m) :
    SortedKeys (methodStep tf path method operation m) := by
  simp only [methodStep]
  split_ifs
  · exact update_sorted hs _ _
  · exact hs
  · exact hs

theorem methodStep_names (tf : Option (List String)) (path method : String)
    (operation : Json) {m : List (String × Service)} (hm : NamesOk m) :
    NamesOk (methodStep tf path method operation m) := by
  simp only [methodStep]
  split_ifs
  · exact update_namesOk hm (methodStep_updater_name operation path method)
  · exact hm
  · exact hm

theorem methodStep_allowed {fs : List String} (path method : String) (operation : Json)
    {m : List (String × Service)} (hm : ∀ kv ∈ m, fs.contains kv.1 = true) :
    ∀ kv ∈ methodStep (some fs) path method operation m, fs.contains kv.1 = true := by
  simp only [methodStep]
  split_ifs with h1 h2
  · intro kv hkv
    rcases update_keys kv hkv with he | hmem
    · rw [he]
      exact h2
    · obtain ⟨kv', hkv', he⟩ := List.mem_map.mp hmem
      rw [← he]
      exact hm kv' hkv'
  · exact hm
  · exact hm

theorem methodStep_filter {fs : List String} (path method : String) (operation : Json)
    {m : List (String × Service)} (hs : SortedKeys m) :
    methodStep (some fs) path method operation (filterKeys fs m) =
      filterKeys fs (methodStep none path method operation m) := by
  simp only [methodStep]
  by_cases hv : is_valid_http_method method = true
  · rw [if_pos hv, if_pos hv]
    rw [show tagAllowed none (normalize_tag ((extract_tag operation).getD "default")) = true
      from rfl, if_pos rfl]
    by_cases hc : fs.contains (normalize_tag ((extract_tag operation).getD "default")) = true
    · rw [show tagAllowed (some fs) (normalize_tag ((extract_tag operation).getD "default")) =
        fs.contains (normalize_tag ((extract_tag operation).getD "default")) from rfl]
      rw [hc, if_pos rfl]
      exact (filterKeys_update_in hs hc _).symm
    · have hc' := contains_false_of_not hc
      rw [show tagAllowed (some fs) (normalize_tag ((extract_tag operation).getD "default")) =
        fs.contains (normalize_tag ((extract_tag operation).getD "default")) from rfl]
      rw [hc', if_neg (by simp)]
      exact (filterKeys_update_out hs hc' _).symm
  · rw [if_neg hv, if_neg hv]



theorem buildMethods_sorted (tf : Option (List String)) (path : String)
    (ms : List (String × Json)) {m : List (String × Service)} (hs : SortedKeys m) :
    SortedKeys (buildMethods tf path ms m) := by
  induction ms generalizing m with
  | nil => exact hs
  | cons hd rest ih =>
    obtain ⟨method, operation⟩ := hd
    exact ih (methodStep_sorted tf path method operation hs)

theorem buildMethods_names (tf : Option (List String)) (path : String)
    (ms : List (String × Json)) {m : List (String × Service)} (hm : NamesOk m) :
    NamesOk (buildMethods tf path ms m) := by
  induction ms generalizing m with
  | nil => exact hm
  | cons hd rest ih =>
    obtain ⟨method, operation⟩ := hd
    exact ih (methodStep_names tf path method operation hm)

theorem buildMethods_allowed {fs : List String} (path : String)
    (ms : List (String × Json)) {m : List (String × Service)}
    (hm : ∀ kv ∈ m, fs.contains kv.1 = true) :
    ∀ kv ∈ buildMethods (some fs) path ms m, fs.contains kv.1 = true := by
  induction ms generalizing m with
  | nil => exact hm
  | cons hd rest ih =>
    obtain ⟨method, operation⟩ := hd
    exact ih (methodStep_allowed path method operation hm)

theorem buildMethods_filter {fs : List String} (path : String)
    (ms : List (String × Json)) {m : List (String × Service)} (hs : SortedKeys m) :
    buildMethods (some fs) path ms (filterKeys fs m) =
      filterKeys fs (buildMethods none path ms m) := by
  induction ms generalizing m with
  | nil => rfl
  | cons hd rest ih =>
    obtain ⟨method, operation⟩ := hd
    rw [buildMethods, buildMethods, methodStep_filter path method operation hs]
    exact ih (methodStep_sorted none path method operation hs)

theorem buildMap_sorted (tf : Option (List String)) (paths : List (String × Json))
    {m : List (String × Service)} (hs : SortedKeys m) :
    SortedKeys (buildMap tf paths m) := by
  induction paths generalizing m with
  | nil => exact hs
  | cons hd rest ih =>
    obtain ⟨path, path_item⟩ := hd
    rw [buildMap]
    cases path_item.asObj with
    | none => exact ih hs
    | some obj => exact ih (buildMethods_sorted tf path obj hs)

theorem buildMap_names (tf : Option (List String)) (paths : List (String × Json))
    {m : List (String × Service)} (hm : NamesOk m) :
    NamesOk (buildMap tf paths m) := by
  induction paths generalizing m with
  | nil => exact hm
  | cons hd rest ih =>
    obtain ⟨path, path_item⟩ := hd
    rw [buildMap]
    cases path_item.asObj with
    | none => exact ih hm
    | some obj => exact ih (buildMethods_names tf path obj hm)

theorem buildMap_allowed {fs : List String} (paths : List (String × Json))
    {m : List (String × Service)} (hm : ∀ kv ∈ m, fs.contains kv.1 = true) :
    ∀ kv ∈ buildMap (some fs) paths m, fs.contains kv.1 = true := by
  induction paths generalizing m with
  | nil => exact hm
  | cons hd rest ih =>
    obtain ⟨path, path_item⟩ := hd
    rw [buildMap]
    cases path_item.asObj with
    | none => exact ih hm
    | some obj => exact ih (buildMethods_allowed path obj hm)

theorem buildMap_filter {fs : List String} (paths : List (String × Json))
    {m : List (String × Service)} (hs : SortedKeys m) :
    buildMap (some fs) paths (filterKeys fs m) =
      filterKeys fs (buildMap none paths m) := by
  induction paths generalizing m with
  | nil => rfl
  | cons hd rest ih =>
    obtain ⟨path, path_item⟩ := hd
    rw [buildMap, buildMap]
    cases hpi : path_item.asObj with
    | none => exact ih hs
    | some obj =>
      show buildMap (some fs) rest (buildMethods (some fs) path obj (filterKeys fs m)) =
        filterKeys fs (buildMap none rest (buildMethods none path obj m))
      rw [buildMethods_filter path obj hs]
      exact ih (buildMethods_sorted none path obj hs)



theorem not_contains_of_false {fs : List String} {k : String}
    (h : fs.contains k = false) : ¬ fs.contains k = true :=
  fun he => by rw [he] at h; exact Bool.noConfusion h

theorem filterKeys_values {fs : List String} {m : List (String × Service)}
    (hm : NamesOk m) :
    (filterKeys fs m).map (fun p => p.2) =
      (m.map (fun p => p.2)).filter (fun sv => fs.contains sv.name) := by
  induction m with
  | nil => rfl
  | cons hd rest ih =>
    obtain ⟨k, v⟩ := hd
    have hv : v.name = k := hm (k, v) (List.mem_cons_self _ _)
    have hrest : NamesOk rest := fun kv hkv => hm kv (List.mem_cons_of_mem _ hkv)
    by_cases hck : fs.contains k = true
    · rw [filterKeys, filterKeys_cons_pos hck, List.map_cons, List.map_cons,
        List.filter_cons_of_pos (by rw [hv]; exact hck)]
      rw [filterKeys] at ih
      rw [ih hrest]
    · have hck' := contains_false_of_not hck
      rw [filterKeys, filterKeys_cons_neg hck', List.map_cons,
        List.filter_cons_of_neg (by rw [hv]; exact not_contains_of_false hck')]
      rw [filterKeys] at ih
      exact ih hrest

theorem filterSvc_cons_pos {fs : List String} {sv : Service} {rest : List Service}
    (h : fs.contains sv.name = true) :
    List.filter (fun sv => fs.contains sv.name) (sv :: rest) =
      sv :: List.filter (fun sv => fs.contains sv.name) rest :=
  List.filter_cons_of_pos h

theorem filterSvc_cons_neg {fs : List String} {sv : Service} {rest : List Service}
    (h : fs.contains sv.name = false) :
    List.filter (fun sv => fs.contains sv.name) (sv :: rest) =
      List.filter (fun sv => fs.contains sv.name) rest :=
  List.filter_cons_of_neg (not_contains_of_false h)

theorem attachStep_filter {fs : List String} {name : String} {schema : Json}
    {services out : List Service} (h : attachStep name schema services = some out) :
    attachStep name schema (services.filter (fun sv => fs.contains sv.name)) =
      some (out.filter (fun sv => fs.contains sv.name)) := by
  induction services generalizing out with
  | nil =>
    simp [attachStep] at h
    subst h
    rfl
  | cons sv rest ih =>
    by_cases hsv : should_include_type name sv.operations
    · rw [attachStep, if_pos hsv] at h
      rcases Option.bind_eq_some.mp h with ⟨td, hext, hmap⟩
      rcases Option.map_eq_some'.mp hmap with ⟨r, hrest, hout⟩
      subst hout
      by_cases hck : fs.contains sv.name = true
      · rw [filterSvc_cons_pos hck]
        rw [attachStep, if_pos hsv, hext]
        rw [Option.some_bind]
        rw [ih hrest]
        rw [Option.map_some']
        rw [@filterSvc_cons_pos fs
          { sv with type_definitions := insertAM sv.type_definitions name td } r hck]
      · have hck' := contains_false_of_not hck
        rw [filterSvc_cons_neg hck']
        rw [ih hrest]
        rw [@filterSvc_cons_neg fs
          { sv with type_definitions := insertAM sv.type_definitions name td } r hck']
    · rw [attachStep, if_neg hsv] at h
      rcases Option.map_eq_some'.mp h with ⟨r, hrest, hout⟩
      subst hout
      by_cases hck : fs.contains sv.name = true
      · rw [filterSvc_cons_pos hck]
        rw [attachStep, if_neg hsv]
        rw [ih hrest]
        rw [Option.map_some']
        rw [filterSvc_cons_pos hck]
      · have hck' := contains_false_of_not hck
        rw [filterSvc_cons_neg hck']
        rw [ih hrest]
        rw [filterSvc_cons_neg hck']

theorem attachPass_filter {fs : List String} {schemas : List (String × Json)}
    {services out : List Service} (h : attachPass schemas services = some out) :
    attachPass schemas (services.filter (fun sv => fs.contains sv.name)) =
      some (out.filter (fun sv => fs.contains sv.name)) := by
  induction schemas generalizing services with
  | nil =>
    simp [attachPass] at h ⊢
    exact congrArg _ h
  | cons hd rest ih =>
    obtain ⟨n0, s0⟩ := hd
    rw [attachPass] at h ⊢
    cases hstep : attachStep n0 s0 services with
    | none => rw [hstep] at h; cases h
    | some mid =>
      rw [hstep] at h
      rw [attachStep_filter hstep]
      exact ih h

theorem attachPass_shape {schemas : List (String × Json)} {services out : List Service}
    (h : attachPass schemas services = some out) :
    out.map (fun s => (s.name, s.operations)) =
      services.map (fun s => (s.name, s.operations)) := by
  induction schemas generalizing services with
  | nil =>
    simp [attachPass] at h
    subst h
    rfl
  | cons hd rest ih =>
    obtain ⟨n0, s0⟩ := hd
    rw [attachPass] at h
    cases hstep : attachStep n0 s0 services with
    | none => rw [hstep] at h; cases h
    | some mid =>
      rw [hstep] at h
      exact (ih h).trans (attachStep_shape hstep)



theorem parse_swagger_filter {doc : Json} {fs : List String} {svs : List Service}
    (h : parse_swagger doc none = some svs) :
    parse_swagger doc (some fs) = some (svs.filter (fun sv => fs.contains sv.name)) := by
  rw [parse_swagger] at h ⊢
  cases hp : (doc.get "paths").bind Json.asObj with
  | none => rw [hp] at h; cases h
  | some paths =>
    rw [hp] at h
    simp only [Option.some_bind] at h ⊢
    have hs0 : SortedKeys ([] : List (String × Service)) := List.Pairwise.nil
    have hm0 : NamesOk ([] : List (String × Service)) :=
      fun kv hkv => absurd hkv (List.not_mem_nil kv)
    have hnames := buildMap_names none paths hm0
    have hbm : buildMap (some fs) paths [] = filterKeys fs (buildMap none paths []) :=
      buildMap_filter paths hs0
    rw [hbm]
    have hvals : (filterKeys fs (buildMap none paths [])).map (fun p => p.2) =
        ((buildMap none paths []).map (fun p => p.2)).filter
          (fun sv => fs.contains sv.name) :=
      filterKeys_values hnames
    rw [hvals]
    cases hfs : (find_schemas doc).bind Json.asObj with
    | none =>
      rw [hfs] at h
      have h2 : some ((buildMap none paths []).map (fun p => p.2)) = some svs := h
      rw [Option.some.inj h2]
    | some schema_obj =>
      rw [hfs] at h
      have h2 : attachPass schema_obj ((buildMap none paths []).map (fun p => p.2)) =
        some svs := h
      exact attachPass_filter h2

theorem parse_swagger_some_names {doc : Json} {fs : List String} {svs : List Service}
    {sv : Service} (h : parse_swagger doc (some fs) = some svs) (hsv : sv ∈ svs) :
    fs.contains sv.name = true := by
  rw [parse_swagger] at h
  cases hp : (doc.get "paths").bind Json.asObj with
  | none => rw [hp] at h; cases h
  | some paths =>
    rw [hp] at h
    simp only [Option.some_bind] at h
    have hm0 : NamesOk ([] : List (String × Service)) :=
      fun kv hkv => absurd hkv (List.not_mem_nil kv)
    have hall : ∀ kv ∈ buildMap (some fs) paths [], fs.contains kv.1 = true :=
      buildMap_allowed paths (fun kv hkv => absurd hkv (List.not_mem_nil kv))
    have hnames : NamesOk (buildMap (some fs) paths []) := buildMap_names (some fs) paths hm0
    have hval : ∀ s ∈ (buildMap (some fs) paths []).map (fun p => p.2),
        fs.contains s.name = true := by
      intro s hs
      obtain ⟨kv, hkv, he⟩ := List.mem_map.mp hs
      have h1 := hall kv hkv
      have h2 := hnames kv hkv
      rw [he] at h2
      rw [h2]
      exact h1
    cases hfs : (find_schemas doc).bind Json.asObj with
    | none =>
      rw [hfs] at h
      have h2 : some ((buildMap (some fs) paths []).map (fun p => p.2)) = some svs := h
      rw [← Option.some.inj h2] at hsv
      exact hval sv hsv
    | some schema_obj =>
      rw [hfs] at h
      have h2 : attachPass schema_obj ((buildMap (some fs) paths []).map (fun p => p.2)) =
        some svs := h
      have hsh := attachPass_shape h2
      have hmem : (sv.name, sv.operations) ∈ svs.map (fun s => (s.name, s.operations)) :=
        List.mem_map.mpr ⟨sv, hsv, rfl⟩
      rw [hsh] at hmem
      obtain ⟨s, hs, he⟩ := List.mem_map.mp hmem
      have hn : s.name = sv.name := congrArg Prod.fst he
      rw [← hn]
      exact hval s hs

theorem methodStep_keys_mono {tf : Option (List String)} {path method : String}
    {operation : Json} {m : List (String × Service)} {k : String}
    (hk : k ∈ m.map Prod.fst) :
    k ∈ (methodStep tf path method operation m).map Prod.fst := by
  simp only [methodStep]
  split_ifs
  · exact mem_keys_update_mono hk _ _
  · exact hk
  · exact hk

theorem methodStep_mem {tf : Option (List String)} {path method : String}
    {operation : Json} {m : List (String × Service)}
    (hv : is_valid_http_method method = true)
    (ha : tagAllowed tf (normalize_tag ((extract_tag operation).getD "default")) = true) :
    normalize_tag ((extract_tag operation).getD "default") ∈
      (methodStep tf path method operation m).map Prod.fst := by
  simp only [methodStep]
  rw [if_pos hv, if_pos ha]
  exact mem_keys_update_self _ _

theorem buildMethods_keys_mono {tf : Option (List String)} {path : String}
    {ms : List (String × Json)} {m : List (String × Service)} {k : String}
    (hk : k ∈ m.map Prod.fst) :
    k ∈ (buildMethods tf path ms m).map Prod.fst := by
  induction ms generalizing m with
  | nil => exact hk
  | cons hd rest ih =>
    obtain ⟨method, operation⟩ := hd
    exact ih (methodStep_keys_mono hk)

theorem buildMethods_mem {tf : Option (List String)} {path : String}
    {ms : List (String × Json)} {m : List (String × Service)}
    {method : String} {operation : Json}
    (hmem : (method, operation) ∈ ms) (hv : is_valid_http_method method = true)
    (ha : tagAllowed tf (normalize_tag ((extract_tag operation).getD "default")) = true) :
    normalize_tag ((extract_tag operation).getD "default") ∈
      (buildMethods tf path ms m).map Prod.fst := by
  induction ms generalizing m with
  | nil => exact absurd hmem (List.not_mem_nil _)
  | cons hd rest ih =>
    rcases List.mem_cons.mp hmem with heq | hmem'
    · obtain ⟨m1, o1⟩ := hd
      have e1 : method = m1 := congrArg Prod.fst heq
      have e2 : operation = o1 := congrArg Prod.snd heq
      subst e1
      subst e2
      rw [buildMethods]
      exact buildMethods_keys_mono (methodStep_mem hv ha)
    · obtain ⟨m1, o1⟩ := hd
      rw [buildMethods]
      exact ih hmem'

theorem buildMap_keys_mono {tf : Option (List String)} {paths : List (String × Json)}
    {m : List (String × Service)} {k : String} (hk : k ∈ m.map Prod.fst) :
    k ∈ (buildMap tf paths m).map Prod.fst := by
  induction paths generalizing m with
  | nil => exact hk
  | cons hd rest ih =>
    obtain ⟨path, path_item⟩ := hd
    rw [buildMap]
    cases path_item.asObj with
    | none => exact ih hk
    | some obj => exact ih (buildMethods_keys_mono hk)

theorem buildMap_mem {tf : Option (List String)} {paths : List (String × Json)}
    {m : List (String × Service)} {path : String} {path_item : Json}
    {ms : List (String × Json)} {method : String} {operation : Json}
    (hp : (path, path_item) ∈ paths) (hobj : path_item.asObj = some ms)
    (hmem : (method, operation) ∈ ms) (hv : is_valid_http_method method = true)
    (ha : tagAllowed tf (normalize_tag ((extract_tag operation).getD "default")) = true) :
    normalize_tag ((extract_tag operation).getD "default") ∈
      (buildMap tf paths m).map Prod.fst := by
  induction paths generalizing m with
  | nil => exact absurd hp (List.not_mem_nil _)
  | cons hd rest ih =>
    rcases List.mem_cons.mp hp with heq | hp'
    · obtain ⟨p1, pi1⟩ := hd
      have e1 : path = p1 := congrArg Prod.fst heq
      have e2 : path_item = pi1 := congrArg Prod.snd heq
      subst e1
      subst e2
      rw [buildMap]
      have hred : (match path_item.asObj with
          | some obj => buildMethods tf path obj m
          | none => m) = buildMethods tf path ms m := by
        rw [hobj]
      rw [hred]
      exact buildMap_keys_mono (buildMethods_mem hmem hv ha)
    · obtain ⟨p1, pi1⟩ := hd
      rw [buildMap]
      exact ih hp'

theorem mem_values_of_key {m : List (String × Service)} {k : String}
    (hk : k ∈ m.map Prod.fst) (hm : NamesOk m) :
    ∃ sv ∈ m.map (fun p => p.2), sv.name = k := by
  obtain ⟨kv, hkv, he⟩ := List.mem_map.mp hk
  exact ⟨kv.2, List.mem_map.mpr ⟨kv, hkv, rfl⟩, by rw [hm kv hkv, he]⟩

theorem parse_swagger_tag_service {doc : Json} {svs : List Service}
    {paths : List (String × Json)} {path : String} {path_item : Json}
    {ms : List (String × Json)} {method : String} {operation : Json}
    (h : parse_swagger doc none = some svs)
    (hp : (doc.get "paths").bind Json.asObj = some paths)
    (hmem : (path, path_item) ∈ paths)
    (hobj : path_item.asObj = some ms)
    (hop : (method, operation) ∈ ms)
    (hv : is_valid_http_method method = true) :
    ∃ sv ∈ svs, sv.name = normalize_tag ((extract_tag operation).getD "default") := by
  rw [parse_swagger, hp] at h
  simp only [Option.some_bind] at h
  have hm0 : NamesOk ([] : List (String × Service)) :=
    fun kv hkv => absurd hkv (List.not_mem_nil kv)
  have hnames := buildMap_names none paths hm0
  have hkey : normalize_tag ((extract_tag operation).getD "default") ∈
      (buildMap none paths []).map Prod.fst :=
    buildMap_mem hmem hobj hop hv rfl
  obtain ⟨sv0, hsv0, hname⟩ := mem_values_of_key hkey hnames
  cases hfs : (find_schemas doc).bind Json.asObj with
  | none =>
    rw [hfs] at h
    have h2 : some ((buildMap none paths []).map (fun p => p.2)) = some svs := h
    rw [Option.some.inj h2] at hsv0
    exact ⟨sv0, hsv0, hname⟩
  | some schema_obj =>
    rw [hfs] at h
    have h2 : attachPass schema_obj ((buildMap none paths []).map (fun p => p.2)) =
      some svs := h
    have hsh := attachPass_shape h2
    have hmm : (sv0.name, sv0.operations) ∈
        ((buildMap none paths []).map (fun p => p.2)).map (fun s => (s.name, s.operations)) :=
      List.mem_map.mpr ⟨sv0, hsv0, rfl⟩
    rw [← hsh] at hmm
    obtain ⟨s, hs, he⟩ := List.mem_map.mp hmm
    refine ⟨s, hs, ?_⟩
    have hn : s.name = sv0.name := by
      have h3 := congrArg Prod.fst he
      simpa using h3
    rw [hn]
    exact hname

/-- C7: with a comma-separated allow-list (entries split on commas,
trimmed, empties dropped), the parsed services are exactly the services of
the unfiltered run whose normalized tag is a member of the set, so no
operation of any other tag is processed; every emitted service's name is in
the set; and without an allow-list every occurring operation yields a
service named by its normalized tag, untagged operations falling into
`default`. -/
theorem claim_C7_tag_allow_list :
    (∀ (doc : Json) (tags : String) (svs : List Service),
        parse_swagger doc none = some svs →
        parse_swagger doc (some (mkTagFilters tags)) =
          some (svs.filter (fun sv => (mkTagFilters tags).contains sv.name)))
    ∧ (∀ (doc : Json) (tags : String) (svs : List Service) (sv : Service),
        parse_swagger doc (some (mkTagFilters tags)) = some svs → sv ∈ svs →
        (mkTagFilters tags).contains sv.name = true)
    ∧ (∀ (doc : Json) (svs : List Service) (paths : List (String × Json))
        (path : String) (path_item : Json) (ms : List (String × Json))
        (method : String) (operation : Json),
        parse_swagger doc none = some svs →
        (doc.get "paths").bind Json.asObj = some paths →
        (path, path_item) ∈ paths → path_item.asObj = some ms →
        (method, operation) ∈ ms → is_valid_http_method method = true →
        ∃ sv ∈ svs, sv.name = normalize_tag ((extract_tag operation).getD "default")) :=
  ⟨fun _ _ _ h => parse_swagger_filter h,
   fun _ _ _ _ h hsv => parse_swagger_some_names h hsv,
   fun _ _ _ _ _ _ _ _ h hp hm ho hop hv => parse_swagger_tag_service h hp hm ho hop hv⟩

/-- The concrete document for the C7 witness: one path with a tagged `get`
and an untagged `post`. -/
def c7Doc : Json :=
  Json.obj [("paths", Json.obj [("/pets", Json.obj
    [("get", Json.obj [("tags", Json.arr [Json.str " Pets "])]),
     ("post", Json.obj [])])])]

/-- The untagged `post` operation of the C7 witness document. -/
def c7PostOp : ApiOperation :=
  { path := "/pets", method := "POST", function_name := "CreatePets",
    request_type := "any", response_type := "any", operation_id := none }

/-- The tagged `get` operation of the C7 witness document. -/
def c7GetOp : ApiOperation :=
  { path := "/pets", method := "GET", function_name := "GetPets",
    request_type := "any", response_type := "any", operation_id := none }

/-- The implicit default service of the C7 witness document. -/
def c7DefaultService : Service :=
  { name := "default", operations := [c7PostOp], type_definitions := [] }

/-- The `pets` service of the C7 witness document. -/
def c7PetsService : Service :=
  { name := "pets", operations := [c7GetOp], type_definitions := [] }

/-- Witness for C7 at the concrete document, with allow-list `"pets"`. -/
theorem claim_C7_tag_allow_list_witness :
    parse_swagger c7Doc none = some [c7DefaultService, c7PetsService]
    ∧ parse_swagger c7Doc (some (mkTagFilters "pets")) =
        some ([c7DefaultService, c7PetsService].filter
          (fun sv => (mkTagFilters "pets").contains sv.name)) :=
  ⟨rfl, claim_C7_tag_allow_list.1 c7Doc "pets" [c7DefaultService, c7PetsService] rfl⟩

end Ropenapi
